import Mathlib

/-!
Verification of the patch-graph core of `direct/src/p3d/PatchMaker.py`.

The development shallowly embeds the parts of the source the claims are
about, in four largely independent components:

1. the patch graph and the recursive chain search
   (`PatchMaker.PackageVersion.getPatchChain`, lines 48-78);
2. archive materialization (`getRecreateFilePlan`, `getFile`, `applyPatch`,
   lines 80-186), with the filesystem and the external patch/decompress
   oracles abstracted as parameters;
3. descriptor reading and rewriting (`Package.readDescFile`,
   `Package.writeDescFile`, lines 336-526);
4. the node-interning registry and edge wiring
   (`PatchMaker.getPackageVersion`, `buildPatchChains`, `recordPatchfile`,
   `processPackage`, `buildPatchFile`, lines 564-814).

Nodes of the patch graph are identified with elements of `Fin n` (the
source interns `PackageVersion` objects in a dictionary, so object
identity coincides with key identity; the registry component proves
exactly that).  The recursive searches of the source carry an explicit
recursion-depth budget (`fuel`); the value `none` of the outer `Option`
marks a truncated recursion.  The termination theorems show the budget
`n + 1` is never exhausted, which is the source's termination argument
(the visited list grows monotonically along each recursion branch).
-/

/-- A patchfile edge as seen by the graph search: `fromPv`/`toPv` are the
interned `PackageVersion` nodes wired by `recordPatchfile`; `pid`
distinguishes parallel patchfiles between the same nodes (the source
distinguishes them by object identity / filename). -/
structure Patchfile (n : Nat) where
  fromPv : Fin n
  toPv : Fin n
  pid : Nat
deriving DecidableEq

/-- The patch graph: `n` interned `PackageVersion` nodes; `fromPatches v`
is the list of patchfiles that can produce node `v`, in the order
`recordPatchfile` appended them (the declared descriptor order). -/
structure PatchGraph where
  n : Nat
  fromPatches : Fin n → List (Patchfile n)

/-- The number of nodes not yet on the visited list: the measure that
shrinks whenever `getPatchChain` appends `self` to `alreadyVisited`. -/
def unvisited (G : PatchGraph) (av : List (Fin G.n)) : Nat :=
  ((Finset.univ : Finset (Fin G.n)).filter (fun i => i ∉ av)).card

/-- The `for patchfile in self.fromPatches` loop of `getPatchChain`
(lines 66-74), folding the running `bestPatchChain`; `recur` is the
recursive call `fromPv.getPatchChain(startPv, alreadyVisited)` at the
depth budget one below the caller's. -/
def chainLoopF {n : Nat}
    (recur : Fin n → Option (Option (List (Patchfile n)))) :
    List (Patchfile n) → Option (List (Patchfile n)) →
    Option (Option (List (Patchfile n)))
  | [], best => some best
  | pf :: rest, best =>
    match recur pf.fromPv with
    | none => none
    | some none => chainLoopF recur rest best
    | some (some patchChain) =>
      let patchChain := patchChain ++ [pf]
      match best with
      | none => chainLoopF recur rest (some patchChain)
      | some best' =>
        if patchChain.length < best'.length then
          chainLoopF recur rest (some patchChain)
        else
          chainLoopF recur rest (some best')

/-- Transcription of `PackageVersion.getPatchChain` (lines 48-78), with a
recursion-depth budget.  `self` is the target node the method is invoked
on, `startPv` the start node.  Result `none`: budget exhausted;
`some none`: the source returns `None`; `some (some c)`: the source
returns the chain `c`. -/
def getPatchChainF (G : PatchGraph) :
    Nat → Fin G.n → Fin G.n → List (Fin G.n) →
    Option (Option (List (Patchfile G.n)))
  | 0, _, _, _ => none
  | fuel + 1, self, startPv, alreadyVisited =>
    if self = startPv then some (some [])
    else if self ∈ alreadyVisited then some none
    else chainLoopF
      (fun fromPv => getPatchChainF G fuel fromPv startPv (alreadyVisited ++ [self]))
      (G.fromPatches self) none

/-- `getPatchChain` as called externally (default `alreadyVisited = []`),
with the budget `n + 1` the termination theorem proves sufficient. -/
def getPatchChain (G : PatchGraph) (self startPv : Fin G.n) :
    Option (List (Patchfile G.n)) :=
  (getPatchChainF G (G.n + 1) self startPv []).getD none

/-- `ChainRev G t s c` : read back-to-front, `c` is a directed path of
patch edges from `s` to `t`: the first element of `c` is an incoming
edge of `t`, and its `fromPv` continues the path down to `s`.  A chain
`r` returned by `getPatchChain` (built front-to-back by `++ [patchfile]`)
satisfies `ChainRev G t s r.reverse`. -/
def ChainRev (G : PatchGraph) : Fin G.n → Fin G.n → List (Patchfile G.n) → Prop
  | t, s, [] => t = s
  | t, s, pf :: rest => pf ∈ G.fromPatches t ∧ ChainRev G pf.fromPv s rest

instance ChainRev.dec (G : PatchGraph) :
    (t s : Fin G.n) → (c : List (Patchfile G.n)) → Decidable (ChainRev G t s c)
  | t, s, [] => inferInstanceAs (Decidable (t = s))
  | t, _, pf :: _ =>
    @instDecidableAnd (pf ∈ G.fromPatches t) _ _ (ChainRev.dec G pf.fromPv _ _)

/-- The interior nodes of a backward chain: the nodes at which the search
would perform its visited-list check while walking `c` down from `t`. -/
def nodesRev {n : Nat} : Fin n → List (Patchfile n) → List (Fin n)
  | _, [] => []
  | t, pf :: rest => t :: nodesRev pf.fromPv rest

/-- An on-disk or temporary file as the materialization code sees it:
an abstract identity plus whether its name carries the `.pz` extension
(the only attribute `getFile` inspects).  Temporary files made by
`Filename.temporary('', 'patch_')` have no extension, so `isPz = false`. -/
structure MFile where
  fid : Nat
  isPz : Bool
deriving DecidableEq

/-- The per-session mutable state of the `PackageVersion` nodes that
`getRecreateFilePlan`/`getFile` read and write: each node's `tempFile`,
plus a counter supplying fresh temporary file identities. -/
structure MatState (n : Nat) where
  tempFile : Fin n → Option MFile
  nextTemp : Nat

/-- The anchored files of the graph: `packageCurrent v = some f` models
`v.packageCurrent` being set with
`f = Filename(package.packageDir, package.compressedFilename)`, and
`packageBase v = some f` models `v.packageBase` being set with
`f = Filename(package.packageDir, package.baseFile.filename + '.pz')`. -/
structure Anchors (n : Nat) where
  packageCurrent : Fin n → Option MFile
  packageBase : Fin n → Option MFile

/-- The external oracles of `getFile`: whether `Patchfile().apply` of a
given patchfile to a given original succeeds, and whether
`decompressFile` of a given file succeeds. -/
structure MatEnv (n : Nat) where
  applyOk : Patchfile n → MFile → Bool
  decompressOk : MFile → Bool

/-- The triple `(startFile, startPv, plan)` that `getRecreateFilePlan`
returns, each component optional exactly as in the source (where the
no-solution answer is `(None, None, None)`). -/
abbrev PlanTriple (n : Nat) :=
  Option MFile × Option (Fin n) × Option (List (Patchfile n × Fin n))

/-- The `for patchfile in self.fromPatches` loop of `getRecreateFilePlan`
(lines 117-126), folding `(bestStartFile, bestStartPv, bestPlan)`;
`recur` is the recursive call `fromPv.getRecreateFilePlan(alreadyVisited)`
at the depth budget one below the caller's. -/
def planLoopF {n : Nat} (recur : Fin n → Option (PlanTriple n)) (self : Fin n) :
    List (Patchfile n) → PlanTriple n → Option (PlanTriple n)
  | [], best => some best
  | pf :: rest, best =>
    match recur pf.fromPv with
    | none => none
    | some (startFile, startPv, plan?) =>
      match plan? with
      | none => planLoopF recur self rest best
      | some plan =>
        let plan := plan ++ [(pf, self)]
        match best.2.2 with
        | none => planLoopF recur self rest (startFile, startPv, some plan)
        | some bestPlan =>
          if plan.length < bestPlan.length then
            planLoopF recur self rest (startFile, startPv, some plan)
          else
            planLoopF recur self rest best

/-- Transcription of `PackageVersion.getRecreateFilePlan` (lines 80-130)
with a recursion-depth budget (`none` = budget exhausted). -/
def getRecreateFilePlanF (G : PatchGraph) (A : Anchors G.n) (st : MatState G.n) :
    Nat → Fin G.n → List (Fin G.n) → Option (PlanTriple G.n)
  | 0, _, _ => none
  | fuel + 1, self, alreadyVisited =>
    match st.tempFile self with
    | some t => some (some t, some self, some [])
    | none =>
      if self ∈ alreadyVisited then some (none, none, none)
      else
        match A.packageCurrent self with
        | some f => some (some f, some self, some [])
        | none =>
          match A.packageBase self with
          | some f => some (some f, some self, some [])
          | none => planLoopF
              (fun fromPv => getRecreateFilePlanF G A st fuel fromPv (alreadyVisited ++ [self]))
              self (G.fromPatches self) (none, none, none)

/-- `getRecreateFilePlan` as called externally (default
`alreadyVisited = []`), with the budget `n + 1` the termination theorem
proves sufficient. -/
def getRecreateFilePlan (G : PatchGraph) (A : Anchors G.n) (st : MatState G.n)
    (self : Fin G.n) : PlanTriple G.n :=
  (getRecreateFilePlanF G A st (G.n + 1) self []).getD (none, none, none)

/-- The observable filesystem operations `getFile` performs, recorded so
that \"no patch re-applied, no file re-decompressed\" is a statement about
the returned operation list. -/
inductive MatOp (n : Nat) where
  | decompress (src : MFile)
  | apply (pf : Patchfile n) (orig : MFile)
deriving DecidableEq

/-- The `for patchfile, pv in plan` loop of `getFile` (lines 159-169),
including the fresh temporary made by `applyPatch` (lines 175-186).  On
success the result carries the final `prevFile` together with the last
`pv` of the loop (the values the closing assertion of `getFile`
inspects); on apply failure it is `none` and the loop stops, keeping the
`tempFile` assignments already made. -/
def execPlan {n : Nat} (E : MatEnv n) :
    List (Patchfile n × Fin n) → MFile → MatState n →
    Option (MFile × Fin n) × MatState n × List (MatOp n)
  | [], _, st => (none, st, [])
  | (pf, pv) :: rest, prevFile, st =>
    let temp : MFile := ⟨st.nextTemp, false⟩
    let st₁ : MatState n := { st with nextTemp := st.nextTemp + 1 }
    if E.applyOk pf prevFile then
      let st₂ : MatState n :=
        { st₁ with tempFile := Function.update st₁.tempFile pv (some temp) }
      match rest with
      | [] => (some (temp, pv), st₂, [MatOp.apply pf prevFile])
      | r :: rs =>
        let (res, stF, ops) := execPlan E (r :: rs) temp st₂
        (res, stF, MatOp.apply pf prevFile :: ops)
    else (none, st₁, [MatOp.apply pf prevFile])

/-- The tail of `getFile` after the decompression stage (lines 150-173):
empty (or `None`) plan returns `startFile`; a non-empty plan is executed,
an apply failure returns `None`, and the closing
`assert pv is self and prevFile is self.tempFile` is modeled as a crash
(outer `none`) when violated. -/
def getFileRest {n : Nat} (E : MatEnv n) (st : MatState n) (self : Fin n)
    (startFile : MFile) (plan? : Option (List (Patchfile n × Fin n)))
    (ops : List (MatOp n)) :
    Option (Option MFile) × MatState n × List (MatOp n) :=
  match plan? with
  | none => (some (some startFile), st, ops)
  | some [] => (some (some startFile), st, ops)
  | some (p :: ps) =>
    let (res, st', ops') := execPlan E (p :: ps) startFile st
    match res with
    | none => (some none, st', ops ++ ops')
    | some (prevFile, pv) =>
      if pv = self ∧ st'.tempFile self = some prevFile then
        (some (some prevFile), st', ops ++ ops')
      else (none, st', ops ++ ops')

/-- Transcription of `PackageVersion.getFile` (lines 132-173).  Result
`(none, _, _)`: the source raises (the `AttributeError` from
`startFile.getExtension()` when the plan is `(None, None, None)`, or an
assertion failure); `(some none, _, _)`: the source returns `None`;
`(some (some f), _, _)`: the source returns the file `f`.  The middle
component is the state after the call, the last the operations
performed. -/
def getFile (G : PatchGraph) (A : Anchors G.n) (E : MatEnv G.n)
    (st : MatState G.n) (self : Fin G.n) :
    Option (Option MFile) × MatState G.n × List (MatOp G.n) :=
  match getRecreateFilePlan G A st self with
  | (none, _, _) => (none, st, [])
  | (some startFile, startPv?, plan?) =>
    if startFile.isPz then
      match startPv? with
      | none => (none, st, [])
      | some startPv =>
        match st.tempFile startPv with
        | some _ => (none, st, [])
        | none =>
          let temp : MFile := ⟨st.nextTemp, false⟩
          let st₁ : MatState G.n :=
            { tempFile := Function.update st.tempFile startPv (some temp),
              nextTemp := st.nextTemp + 1 }
          if E.decompressOk startFile then
            getFileRest E st₁ self temp plan? [MatOp.decompress startFile]
          else (some none, st₁, [MatOp.decompress startFile])
    else getFileRest E st self startFile plan? []

/-- A `FileSpec` as the patch maker uses it: the advisory filename and
the content hash that is the graph's identity key.  (Size and timestamp
are never consulted by the code under verification.) -/
structure FileSpec where
  filename : String
  hash : Nat
deriving DecidableEq

/-- The package coordinates `(packageName, platform, version, hostUrl)`;
`readDescFile` always sets `hostUrl = None` (the sentinel host). -/
structure Coord where
  packageName : String
  platform : String
  version : String
  hostUrl : Option String
deriving DecidableEq

/-- A `<patch>` entry as `recordPatchfile` consumes it: its coordinates
(after the `loadXml` defaulting) and the hashes of the patch artifact,
its source file and its target file.  `getSourceKey`/`getTargetKey` key
on `(coord, sourceFile.hash)` / `(coord, targetFile.hash)`. -/
structure PatchDecl where
  coord : Coord
  fileHash : Nat
  sourceHash : Nat
  targetHash : Nat
deriving DecidableEq

/-- A filesystem side effect `readDescFile` may perform when
`doProcessing` is set: the cache-busting rename of the compressed
archive, or the bootstrap copy to the base archive. -/
inductive FsAct where
  | rename (old new : String)
  | copy (src dst : String)
deriving DecidableEq

/-- Everything `readDescFile` computes and stores on the `Package`
(the fields later code reads), plus the filesystem actions performed. -/
structure DescResult where
  coord : Coord
  currentFile : Option FileSpec
  topFile : Option FileSpec
  baseFile : Option FileSpec
  compressedFilename : Option String
  patchVersion : Nat
  anyChanges : Bool
  isNewVersion : Bool
  patches : List PatchDecl
  actions : List FsAct
deriving DecidableEq

/-- The descriptor document as `readDescFile` reads it: the attributes
and child elements of `<package>`.  Attribute values are modeled
already parsed (`patch_version` via `int`). -/
structure DescXml where
  name : String
  platform : String
  version : String
  uncompressed_archive : Option FileSpec
  top_version : Option FileSpec
  patch_version : Option Nat
  last_patch_version : Option Nat
  compressed_archive : Option FileSpec
  base_version : Option FileSpec
  patches : List PatchDecl
deriving DecidableEq

/-- Lines 372-398 of `readDescFile`: load `top_version` or synthesize it
from `currentFile`, computing `isNewVersion` and the dirty flag.  Result
`(topFile, isNewVersion, anyChanges)`; `none` models the
`AttributeError` of `self.currentFile.hash` when `<top_version>` is
present but `<uncompressed_archive>` is not. -/
def topStep (currentFile top_version : Option FileSpec) :
    Option (Option FileSpec × Bool × Bool) :=
  match top_version with
  | some tf =>
    match currentFile with
    | none => none
    | some cf =>
      if tf.hash = cf.hash then some (some tf, false, false)
      else some (some tf, true, true)
  | none => some (currentFile, true, true)

/-- Lines 407-416 of `readDescFile`: the patch-version update.  Inputs
are the two attributes, `isNewVersion`, the prior `self.patchVersion`
(1 from the constructor) and the dirty flag so far; result is the new
`(patchVersion, anyChanges)`. -/
def patchVersionStep (patch_version last_patch_version : Option Nat)
    (isNewVersion : Bool) (patchVersion₀ : Nat) (anyChanges : Bool) :
    Nat × Bool :=
  match patch_version with
  | some v => (v, anyChanges)
  | none =>
    match last_patch_version with
    | some w => (if isNewVersion then w + 1 else w, true)
    | none => (patchVersion₀, true)

/-- Lines 423-441 of `readDescFile`: the cache-busting rename of the
compressed archive when processing.  Result
`(compressedFilename, anyChanges, actions)`; `none` models the
`AttributeError` of `self.currentFile.filename` when processing with no
`<uncompressed_archive>`.  (Whether `renameTo` succeeds only affects the
refreshed hash stored back into the element, which nothing under
verification reads, so it is not modeled.) -/
def compressedStep (doProcessing : Bool) (currentFile compressed_archive :
    Option FileSpec) (patchVersion : Nat) (anyChanges : Bool) :
    Option (Option String × Bool × List FsAct) :=
  match compressed_archive with
  | some comp =>
    let oldName := comp.filename
    if doProcessing then
      match currentFile with
      | none => none
      | some cf =>
        let newName := cf.filename ++ "." ++ toString patchVersion ++ ".pz"
        if newName ≠ oldName then
          some (some newName, true, [FsAct.rename oldName newName])
        else some (some oldName, anyChanges, [])
    else some (some oldName, anyChanges, [])
  | none => some (none, anyChanges, [])

/-- Lines 445-467 of `readDescFile`: load `base_version` or synthesize it
from `currentFile` (appending `.base` and copying the compressed archive
when processing).  Result `(baseFile, anyChanges, actions)`; `none`
models the `AttributeError` of `self.baseFile.filename` when
synthesizing with no `<uncompressed_archive>`. -/
def baseStep (doProcessing : Bool) (currentFile base_version : Option FileSpec)
    (compressedFilename : Option String) (anyChanges : Bool) :
    Option (Option FileSpec × Bool × List FsAct) :=
  match base_version with
  | some bf => some (some bf, anyChanges, [])
  | none =>
    match currentFile with
    | none => none
    | some cf =>
      let baseFile : FileSpec := { cf with filename := cf.filename ++ ".base" }
      let acts :=
        match doProcessing, compressedFilename with
        | true, some cfn => [FsAct.copy cfn (baseFile.filename ++ ".pz")]
        | _, _ => []
      some (some baseFile, true, acts)

/-- Transcription of `Package.readDescFile` (lines 336-477) restricted to
a successfully loaded document: the sequence of the top-version step, the
patch-version step, the compressed-archive step and the base-version
step, accumulating the dirty flag exactly as the source does.  `none`
models an uncaught `AttributeError` on a malformed descriptor. -/
def readDescFile (doProcessing : Bool) (d : DescXml) : Option DescResult :=
  let coord : Coord := ⟨d.name, d.platform, d.version, none⟩
  let currentFile := d.uncompressed_archive
  match topStep currentFile d.top_version with
  | none => none
  | some (topFile, isNewVersion, anyCh₁) =>
    let (patchVersion, anyCh₂) :=
      patchVersionStep d.patch_version d.last_patch_version isNewVersion 1 anyCh₁
    match compressedStep doProcessing currentFile d.compressed_archive
        patchVersion anyCh₂ with
    | none => none
    | some (compressedFilename, anyCh₃, acts₁) =>
      match baseStep doProcessing currentFile d.base_version
          compressedFilename anyCh₃ with
      | none => none
      | some (baseFile, anyCh₄, acts₂) =>
        some { coord := coord, currentFile := currentFile, topFile := topFile,
               baseFile := baseFile, compressedFilename := compressedFilename,
               patchVersion := patchVersion, anyChanges := anyCh₄,
               isNewVersion := isNewVersion, patches := d.patches,
               actions := acts₁ ++ acts₂ }

/-- What `writeDescFile` persists when it writes: the `patch_version`
attribute, the new `<base_version>` (from `baseFile`), the new
`<top_version>` (from `currentFile` — current is promoted to top), and
one `<patch>` element per recorded patch. -/
structure DescWrite where
  patchVersion : Nat
  base : Option FileSpec
  top : Option FileSpec
  patches : List PatchDecl
deriving DecidableEq

/-- Transcription of `Package.writeDescFile` (lines 479-526): when
`anyChanges` is unset nothing is rewritten (`none`); otherwise the new
descriptor contents are produced. -/
def writeDescFile (r : DescResult) : Option DescWrite :=
  if r.anyChanges then
    some { patchVersion := r.patchVersion, base := r.baseFile,
           top := r.currentFile, patches := r.patches }
  else none

/-- One interned `PackageVersion` object of the registry, as created by
`getPackageVersion`: the key it was interned under (`coord` and the
`file.hash`), its edge lists, and the package anchors `buildPatchChains`
assigns (modeled as the index of the anchoring package). -/
structure NodeRec where
  coord : Coord
  hash : Nat
  fromPatches : List Nat
  toPatches : List Nat
  packageCurrent : Option Nat
  packageBase : Option Nat
  packageTop : Option Nat
deriving DecidableEq

instance : Inhabited NodeRec :=
  ⟨⟨⟨"", "", "", none⟩, 0, [], [], none, none, none⟩⟩

/-- A `Patchfile` object after `recordPatchfile` wired it: its declared
data plus the indices of the interned `fromPv` and `toPv` nodes. -/
structure EdgeRec where
  coord : Coord
  fileHash : Nat
  sourceHash : Nat
  targetHash : Nat
  fromPv : Nat
  toPv : Nat
deriving DecidableEq

instance : Inhabited EdgeRec := ⟨⟨⟨"", "", "", none⟩, 0, 0, 0, 0, 0⟩⟩

/-- The mutable registry of the `PatchMaker`: the interned nodes (the
`packageVersions` dictionary, in insertion order) and the wired edges
(in recording order; an edge is named by its index). -/
structure PMState where
  nodes : List NodeRec
  edges : List EdgeRec
deriving DecidableEq

/-- Dictionary lookup of `self.packageVersions` by the key
`(packageName, platform, version, hostUrl, file.hash)`: the index of the
(unique) node interned under the key. -/
def lookupNode : List NodeRec → Coord → Nat → Option Nat
  | [], _, _ => none
  | nd :: rest, c, h =>
    if nd.coord = c ∧ nd.hash = h then some 0
    else (lookupNode rest c h).map (· + 1)

/-- Transcription of `PatchMaker.getPackageVersion` (lines 677-689):
return the index of the shared node for the key, creating it on a
miss. -/
def getPackageVersion (st : PMState) (c : Coord) (h : Nat) : Nat × PMState :=
  match lookupNode st.nodes c h with
  | some i => (i, st)
  | none =>
    (st.nodes.length,
     { st with nodes := st.nodes ++ [⟨c, h, [], [], none, none, none⟩] })

/-- In-place modification of the node object at index `i` (attribute
assignment on the shared `PackageVersion`). -/
def modifyNode : List NodeRec → Nat → (NodeRec → NodeRec) → List NodeRec
  | [], _, _ => []
  | nd :: rest, 0, f => f nd :: rest
  | nd :: rest, i + 1, f => nd :: modifyNode rest i f

/-- Transcription of `PatchMaker.recordPatchfile` (lines 719-730):
intern the source node, append the edge to its `toPatches`, intern the
target node, append the edge to its `fromPatches`, and record the wired
edge.  (`patchFilenames` and `printName` are bookkeeping nothing under
verification reads.) -/
def recordPatchfile (st : PMState) (p : PatchDecl) : PMState :=
  let r₁ := getPackageVersion st p.coord p.sourceHash
  let i := r₁.1
  let st₁ := r₁.2
  let eid := st₁.edges.length
  let addTo := fun (nd : NodeRec) => { nd with toPatches := nd.toPatches ++ [eid] }
  let st₂ : PMState := { st₁ with nodes := modifyNode st₁.nodes i addTo }
  let r₂ := getPackageVersion st₂ p.coord p.targetHash
  let j := r₂.1
  let st₃ := r₂.2
  let addFrom := fun (nd : NodeRec) => { nd with fromPatches := nd.fromPatches ++ [eid] }
  let st₄ : PMState := { st₃ with nodes := modifyNode st₃.nodes j addFrom }
  { st₄ with edges := st₄.edges ++
      [⟨p.coord, p.fileHash, p.sourceHash, p.targetHash, i, j⟩] }

/-- The fields of a `Package` that `buildPatchChains` and
`processPackage` read.  A package with no versions has `baseFile = none`
and is skipped.  (When `baseFile` is present the source also requires a
loaded `currentFile` and `topFile`; a descriptor missing them crashes
before reaching these functions.) -/
structure PkgIn where
  coord : Coord
  baseFile : Option FileSpec
  currentFile : FileSpec
  topFile : FileSpec
  patches : List PatchDecl
deriving DecidableEq

/-- The node pointers `buildPatchChains` stores back on a package. -/
structure PkgDone where
  currentPv : Option Nat
  basePv : Option Nat
  topPv : Option Nat
deriving DecidableEq

/-- The per-package body of `buildPatchChains` (lines 697-717): intern
the current, base and top nodes (anchoring each to package `pkgIdx`),
then record every declared patchfile. -/
def wirePackage (st : PMState) (pkgIdx : Nat) (p : PkgIn) : PMState × PkgDone :=
  match p.baseFile with
  | none => (st, ⟨none, none, none⟩)
  | some bf =>
    let rc := getPackageVersion st p.coord p.currentFile.hash
    let setCur := fun (nd : NodeRec) => { nd with packageCurrent := some pkgIdx }
    let st₁ : PMState := { rc.2 with nodes := modifyNode rc.2.nodes rc.1 setCur }
    let rb := getPackageVersion st₁ p.coord bf.hash
    let setBase := fun (nd : NodeRec) => { nd with packageBase := some pkgIdx }
    let st₂ : PMState := { rb.2 with nodes := modifyNode rb.2.nodes rb.1 setBase }
    let rt := getPackageVersion st₂ p.coord p.topFile.hash
    let setTop := fun (nd : NodeRec) => { nd with packageTop := some pkgIdx }
    let st₃ : PMState := { rt.2 with nodes := modifyNode rt.2.nodes rt.1 setTop }
    (p.patches.foldl recordPatchfile st₃, ⟨some rc.1, some rb.1, some rt.1⟩)

/-- The fold of `buildPatchChains` over `self.packages`. -/
def buildPatchChainsAux (st : PMState) (pkgIdx : Nat) :
    List PkgIn → PMState × List PkgDone
  | [] => (st, [])
  | p :: rest =>
    let r := wirePackage st pkgIdx p
    let r' := buildPatchChainsAux r.1 (pkgIdx + 1) rest
    (r'.1, r.2 :: r'.2)

/-- Transcription of `PatchMaker.buildPatchChains` (lines 691-717). -/
def buildPatchChains (st : PMState) (pkgs : List PkgIn) :
    PMState × List PkgDone :=
  buildPatchChainsAux st 0 pkgs

/-- Transcription of `PatchMaker.processPackage` (lines 752-768)
restricted to its decision: `none` when no patch is built (no versions,
or `topPv == currentPv`), `some (topPv, currentPv)` when a new patch
from `topPv` to `currentPv` is to be built. -/
def processPackage (p : PkgIn) (pd : PkgDone) : Option (Nat × Nat) :=
  match p.baseFile with
  | none => none
  | some _ =>
    match pd.topPv, pd.currentPv with
    | some t, some c => if t ≠ c then some (t, c) else none
    | _, _ => none

/-- `PkgIn` view of a `readDescFile` result (the fields
`buildPatchChains` reads); `none` when the descriptor lacked the current
or top archive. -/
def mkPkgIn (r : DescResult) : Option PkgIn :=
  match r.currentFile, r.topFile with
  | some cf, some tf => some ⟨r.coord, r.baseFile, cf, tf, r.patches⟩
  | _, _ => none

/-- Presence-set filesystem abstraction for `buildPatchFile`: the set of
paths (abstract identifiers) at which a file exists. -/
def fsRemove (fs : List Nat) (f : Nat) : List Nat := fs.filter (· ≠ f)

def fsAdd (fs : List Nat) (f : Nat) : List Nat :=
  if f ∈ fs then fs else fs ++ [f]

/-- The external binary-delta builder of `buildPatchFile`: whether
`Patchfile().build` reports success for this invocation, and whether on
failure it leaves a partial output file behind. -/
structure BuildOracle where
  buildOk : Bool
  leavesPartial : Bool

/-- Transcription of `PatchMaker.buildPatchFile` (lines 796-814) over
the presence-set filesystem: missing original returns `false` with the
filesystem untouched; otherwise the output is unlinked, the build runs,
and on failure the output is unlinked again. -/
def buildPatchFile (o : BuildOracle) (fs : List Nat)
    (origFilename newFilename patchFilename : Nat) : Bool × List Nat :=
  if origFilename ∈ fs then
    let fs₁ := fsRemove fs patchFilename
    if o.buildOk then (true, fsAdd fs₁ patchFilename)
    else
      let fs₂ := if o.leavesPartial then fsAdd fs₁ patchFilename else fs₁
      (false, fsRemove fs₂ patchFilename)
  else (false, fs)

/-- Example graph of spec scenario S5: `a → b → c → d` plus the direct
edge `a → d` (nodes `a,b,c,d` are `0,1,2,3`). -/
def exGraphBranch : PatchGraph :=
  ⟨4, fun i =>
    if i.val = 1 then [⟨0, 1, 0⟩]
    else if i.val = 2 then [⟨1, 2, 1⟩]
    else if i.val = 3 then [⟨2, 3, 2⟩, ⟨0, 3, 3⟩]
    else []⟩

/-- Example graph of spec scenario S6: a cycle `a → b → a` plus the
isolated node `c` (nodes `a,b,c` are `0,1,2`). -/
def exGraphCycle : PatchGraph :=
  ⟨3, fun i =>
    if i.val = 1 then [⟨0, 1, 0⟩]
    else if i.val = 0 then [⟨1, 0, 1⟩]
    else []⟩

/-- Example materialization graph: node `2` is produced by a patch from
node `0`; node `0` is the anchored base of some package. -/
def exMatGraph : PatchGraph :=
  ⟨3, fun i => if i.val = 2 then [⟨0, 2, 0⟩] else []⟩

def exMatAnchors : Anchors 3 :=
  ⟨fun _ => none, fun i => if i.val = 0 then some ⟨9, true⟩ else none⟩

def exMatEnv : MatEnv 3 := ⟨fun _ _ => true, fun _ => true⟩

def exMatState : MatState 3 := ⟨fun _ => none, 0⟩

/-- Invariant I2 of the spec (edge wiring): every recorded edge `k` is a
member of its source node's `toPatches` and its target node's
`fromPatches`, and the interned hashes of those nodes equal the edge's
`sourceFile.hash` and `targetFile.hash`. -/
@[reducible] def EdgeInv (st : PMState) : Prop :=
  ∀ k, k < st.edges.length →
    (st.edges.getD k default).fromPv < st.nodes.length ∧
    (st.edges.getD k default).toPv < st.nodes.length ∧
    k ∈ (st.nodes.getD (st.edges.getD k default).fromPv default).toPatches ∧
    k ∈ (st.nodes.getD (st.edges.getD k default).toPv default).fromPatches ∧
    (st.nodes.getD (st.edges.getD k default).fromPv default).hash =
      (st.edges.getD k default).sourceHash ∧
    (st.nodes.getD (st.edges.getD k default).toPv default).hash =
      (st.edges.getD k default).targetHash

/-- Invariant I1 of the spec (node identity): distinct interned nodes
never share the key `(coord, hash)`. -/
@[reducible] def KeyUnique (st : PMState) : Prop :=
  ∀ i, i < st.nodes.length → ∀ j, j < st.nodes.length →
    (st.nodes.getD i default).coord = (st.nodes.getD j default).coord →
    (st.nodes.getD i default).hash = (st.nodes.getD j default).hash →
    i = j

/-- Growth relation between node tables along one registry step: length
never shrinks, and each existing node keeps its key and only extends its
edge lists (attribute assignment and list `append` are the only
mutations the source performs). -/
def NodesKeep (l l' : List NodeRec) : Prop :=
  l.length ≤ l'.length ∧
  ∀ i, i < l.length →
    (l'.getD i default).coord = (l.getD i default).coord ∧
    (l'.getD i default).hash = (l.getD i default).hash ∧
    (∀ e ∈ (l.getD i default).toPatches, e ∈ (l'.getD i default).toPatches) ∧
    (∀ e ∈ (l.getD i default).fromPatches, e ∈ (l'.getD i default).fromPatches)

/-- The `isNewVersion` flag as `readDescFile` computes it from the
descriptor: `False` exactly when a `<top_version>` is present whose hash
equals the current archive's hash (lines 372-389). -/
def descIsNewVersion (d : DescXml) : Bool :=
  match d.top_version, d.uncompressed_archive with
  | some tf, some cf => tf.hash ≠ cf.hash
  | _, _ => true

/-- The registry of a freshly constructed `PatchMaker`
(`self.packageVersions = {}`). -/
def pmEmpty : PMState := ⟨[], []⟩

def exCoord : Coord := ⟨"pkg", "linux", "1", none⟩

def exPatchDecl : PatchDecl := ⟨exCoord, 11, 5, 7⟩

/-- Example package: base hash 5, top hash 5, current hash 7, one
declared patch from hash 5 to hash 7. -/
def exPkgIn : PkgIn :=
  ⟨exCoord, some ⟨"pkg.mf.base", 5⟩, ⟨"pkg.mf", 7⟩, ⟨"pkg.mf", 5⟩, [exPatchDecl]⟩

/-- Example descriptor carrying `last_patch_version = 3` and a
`<top_version>` whose hash matches the current archive. -/
def exDescLast : DescXml :=
  ⟨"pkg", "linux", "1", some ⟨"pkg.mf", 7⟩, some ⟨"pkg.mf", 7⟩, none, some 3,
   none, some ⟨"pkg.mf.base", 5⟩, []⟩

def exDescLastRes : DescResult :=
  ⟨⟨"pkg", "linux", "1", none⟩, some ⟨"pkg.mf", 7⟩, some ⟨"pkg.mf", 7⟩,
   some ⟨"pkg.mf.base", 5⟩, none, 3, true, false, [], []⟩

/-- Example descriptor of spec scenario S1 (no-op publication):
`top_version` hash equals the current hash, `patch_version = 3`,
`base_version` present, compressed filename already carrying the patch
version. -/
def exDescNoop : DescXml :=
  ⟨"pkg", "linux", "1", some ⟨"pkg.mf", 7⟩, some ⟨"pkg.mf", 7⟩, some 3, none,
   some ⟨"pkg.mf.3.pz", 9⟩, some ⟨"pkg.mf.base", 5⟩, []⟩

theorem unvisited_append_lt (G : PatchGraph) (av : List (Fin G.n))
    (self : Fin G.n) (h : self ∉ av) :
    unvisited G (av ++ [self]) < unvisited G av := by
  apply Finset.card_lt_card
  constructor
  · intro x hx
    simp only [Finset.mem_filter, Finset.mem_univ, true_and, List.mem_append,
      List.mem_singleton] at hx ⊢
    intro hmem
    exact hx (Or.inl hmem)
  · intro hsub
    have hself : self ∈ Finset.univ.filter (fun i => i ∉ av) := by
      simp [Finset.mem_filter, h]
    have := hsub hself
    simp [Finset.mem_filter] at this

theorem unvisited_le (G : PatchGraph) (av : List (Fin G.n)) :
    unvisited G av ≤ G.n := by
  calc unvisited G av ≤ (Finset.univ : Finset (Fin G.n)).card :=
        Finset.card_filter_le _ _
    _ = G.n := by simp

theorem chainLoopF_isSome {n : Nat}
    (recur : Fin n → Option (Option (List (Patchfile n))))
    (hrec : ∀ v, (recur v).isSome) :
    ∀ (pfs : List (Patchfile n)) (best : Option (List (Patchfile n))),
      (chainLoopF recur pfs best).isSome := by
  intro pfs
  induction pfs with
  | nil => intro best; simp [chainLoopF]
  | cons pf rest ih =>
    intro best
    have h1 := hrec pf.fromPv
    rw [chainLoopF]
    cases hres : recur pf.fromPv with
    | none => rw [hres] at h1; simp at h1
    | some o =>
      cases o with
      | none => exact ih best
      | some chain =>
        cases best with
        | none => exact ih _
        | some best' =>
          dsimp only
          split
          · exact ih _
          · exact ih _

/-- Termination of `getPatchChain` at any recursion-depth budget exceeding
the count of not-yet-visited nodes: the recursion always completes within
that depth, because each level adds a fresh node to the visited list. -/
theorem getPatchChainF_isSome (G : PatchGraph) :
    ∀ (fuel : Nat) (self startPv : Fin G.n) (av : List (Fin G.n)),
      unvisited G av < fuel → (getPatchChainF G fuel self startPv av).isSome := by
  intro fuel
  induction fuel with
  | zero => intro self startPv av h; omega
  | succ fuel ih =>
    intro self startPv av h
    rw [getPatchChainF]
    split
    · simp
    · split
      · simp
      · rename_i hns hnv
        have hlt : unvisited G (av ++ [self]) < fuel := by
          have := unvisited_append_lt G av self hnv
          omega
        exact chainLoopF_isSome _
          (fun v => ih v startPv (av ++ [self]) hlt)
          (G.fromPatches self) none

theorem chainLoopF_sound (G : PatchGraph) (s t : Fin G.n)
    (recur : Fin G.n → Option (Option (List (Patchfile G.n))))
    (hrec : ∀ v r, recur v = some (some r) → ChainRev G v s r.reverse) :
    ∀ (pfs : List (Patchfile G.n)) (best : Option (List (Patchfile G.n))),
      (∀ pf ∈ pfs, pf ∈ G.fromPatches t) →
      (∀ b, best = some b → ChainRev G t s b.reverse) →
      ∀ r, chainLoopF recur pfs best = some (some r) →
      ChainRev G t s r.reverse := by
  intro pfs
  induction pfs with
  | nil =>
    intro best _ hbest r hr
    simp only [chainLoopF, Option.some.injEq] at hr
    exact hbest r hr
  | cons pf rest ih =>
    intro best hsub hbest r hr
    rw [chainLoopF] at hr
    cases hcall : recur pf.fromPv with
    | none => rw [hcall] at hr; exact absurd hr (by simp)
    | some o =>
      rw [hcall] at hr
      cases o with
      | none => exact ih best (fun q hq => hsub q (by simp [hq])) hbest r hr
      | some chain =>
        have hchain : ChainRev G t s (chain ++ [pf]).reverse := by
          rw [List.reverse_append]
          simp only [List.reverse_cons, List.reverse_nil, List.nil_append,
            List.singleton_append]
          exact ⟨hsub pf (by simp), hrec pf.fromPv chain hcall⟩
        dsimp only at hr
        cases best with
        | none =>
          exact ih _ (fun q hq => hsub q (by simp [hq]))
            (fun b hb => by cases hb; exact hchain) r hr
        | some best' =>
          dsimp only at hr
          by_cases hlt : (chain ++ [pf]).length < best'.length
          · rw [if_pos hlt] at hr
            exact ih _ (fun q hq => hsub q (by simp [hq]))
              (fun b hb => by cases hb; exact hchain) r hr
          · rw [if_neg hlt] at hr
            exact ih _ (fun q hq => hsub q (by simp [hq]))
              (fun b hb => by cases hb; exact hbest best' rfl) r hr

/-- Any chain returned by the search is a genuine path: the last edge
returned enters `self`, and the edges chain back to `startPv`. -/
theorem getPatchChainF_sound (G : PatchGraph) :
    ∀ (fuel : Nat) (self startPv : Fin G.n) (av : List (Fin G.n))
      (r : List (Patchfile G.n)),
      getPatchChainF G fuel self startPv av = some (some r) →
      ChainRev G self startPv r.reverse := by
  intro fuel
  induction fuel with
  | zero => intro self startPv av r h; exact absurd h (by simp [getPatchChainF])
  | succ fuel ih =>
    intro self startPv av r h
    rw [getPatchChainF] at h
    by_cases hss : self = startPv
    · rw [if_pos hss] at h
      cases h
      exact hss
    · rw [if_neg hss] at h
      by_cases hv : self ∈ av
      · rw [if_pos hv] at h; exact absurd h (by simp)
      · rw [if_neg hv] at h
        exact chainLoopF_sound G startPv self _
          (fun v r' hr' => ih v startPv (av ++ [self]) r' hr')
          (G.fromPatches self) none (fun q hq => hq) (by simp) r h

theorem chainLoopF_best_le {n : Nat}
    (recur : Fin n → Option (Option (List (Patchfile n)))) :
    ∀ (pfs : List (Patchfile n)) (b : List (Patchfile n))
      (res : Option (List (Patchfile n))),
      chainLoopF recur pfs (some b) = some res →
      ∃ r, res = some r ∧ r.length ≤ b.length := by
  intro pfs
  induction pfs with
  | nil =>
    intro b res h
    simp only [chainLoopF, Option.some.injEq] at h
    exact ⟨b, h.symm, le_refl _⟩
  | cons pf rest ih =>
    intro b res h
    rw [chainLoopF] at h
    cases hcall : recur pf.fromPv with
    | none => rw [hcall] at h; exact absurd h (by simp)
    | some o =>
      rw [hcall] at h
      cases o with
      | none => exact ih b res h
      | some chain =>
        dsimp only at h
        by_cases hlt : (chain ++ [pf]).length < b.length
        · rw [if_pos hlt] at h
          obtain ⟨r, hr, hle⟩ := ih _ res h
          exact ⟨r, hr, by omega⟩
        · rw [if_neg hlt] at h
          exact ih b res h

theorem chainLoopF_reaches {n : Nat}
    (recur : Fin n → Option (Option (List (Patchfile n))))
    (hsome : ∀ v, (recur v).isSome) :
    ∀ (pfs : List (Patchfile n)) (best : Option (List (Patchfile n)))
      (pf : Patchfile n) (r' : List (Patchfile n)),
      pf ∈ pfs → recur pf.fromPv = some (some r') →
      ∃ r, chainLoopF recur pfs best = some (some r) ∧
        r.length ≤ r'.length + 1 := by
  intro pfs
  induction pfs with
  | nil => intro best pf r' hmem; exact absurd hmem (by simp)
  | cons pf₀ rest ih =>
    intro best pf r' hmem hcall
    rcases List.mem_cons.mp hmem with heq | htail
    · subst heq
      rw [chainLoopF, hcall]
      dsimp only
      have hlen : (r' ++ [pf]).length = r'.length + 1 := by simp
      cases best with
      | none =>
        have hs := chainLoopF_isSome recur hsome rest (some (r' ++ [pf]))
        cases hres : chainLoopF recur rest (some (r' ++ [pf])) with
        | none => rw [hres] at hs; simp at hs
        | some res =>
          obtain ⟨r, hr, hle⟩ := chainLoopF_best_le recur rest _ res hres
          exact ⟨r, by rw [hr], by omega⟩
      | some b =>
        dsimp only
        by_cases hlt : (r' ++ [pf]).length < b.length
        · rw [if_pos hlt]
          have hs := chainLoopF_isSome recur hsome rest (some (r' ++ [pf]))
          cases hres : chainLoopF recur rest (some (r' ++ [pf])) with
          | none => rw [hres] at hs; simp at hs
          | some res =>
            obtain ⟨r, hr, hle⟩ := chainLoopF_best_le recur rest _ res hres
            exact ⟨r, by rw [hr], by omega⟩
        · rw [if_neg hlt]
          have hs := chainLoopF_isSome recur hsome rest (some b)
          cases hres : chainLoopF recur rest (some b) with
          | none => rw [hres] at hs; simp at hs
          | some res =>
            obtain ⟨r, hr, hle⟩ := chainLoopF_best_le recur rest _ res hres
            exact ⟨r, by rw [hr], by omega⟩
    · rw [chainLoopF]
      have h0 := hsome pf₀.fromPv
      cases hcall₀ : recur pf₀.fromPv with
      | none => rw [hcall₀] at h0; simp at h0
      | some o =>
        cases o with
        | none => exact ih best pf r' htail hcall
        | some chain =>
          dsimp only
          cases best with
          | none => exact ih _ pf r' htail hcall
          | some b =>
            dsimp only
            by_cases hlt : (chain ++ [pf₀]).length < b.length
            · rw [if_pos hlt]; exact ih _ pf r' htail hcall
            · rw [if_neg hlt]; exact ih _ pf r' htail hcall

/-- Completeness with a length bound: a simple backward chain avoiding
the visited list forces the search to succeed with a result at most as
long. -/
theorem getPatchChainF_complete (G : PatchGraph) (s : Fin G.n) :
    ∀ (c : List (Patchfile G.n)) (t : Fin G.n) (av : List (Fin G.n)) (fuel : Nat),
      ChainRev G t s c → (nodesRev t c).Nodup →
      (∀ x ∈ nodesRev t c, x ∉ av) → unvisited G av < fuel →
      ∃ r, getPatchChainF G fuel t s av = some (some r) ∧
        r.length ≤ c.length := by
  intro c
  induction c with
  | nil =>
    intro t av fuel hchain _ _ hfuel
    have hts : t = s := hchain
    cases fuel with
    | zero => omega
    | succ fuel =>
      rw [getPatchChainF, if_pos hts]
      exact ⟨[], rfl, le_refl _⟩
  | cons pf rest ih =>
    intro t av fuel hchain hnodup hdisj hfuel
    obtain ⟨hpf, hrest⟩ := hchain
    cases fuel with
    | zero => omega
    | succ fuel =>
      rw [getPatchChainF]
      by_cases hts : t = s
      · rw [if_pos hts]
        exact ⟨[], rfl, by simp⟩
      · rw [if_neg hts]
        have htav : t ∉ av := hdisj t (by simp [nodesRev])
        rw [if_neg htav]
        have hfuel' : unvisited G (av ++ [t]) < fuel := by
          have := unvisited_append_lt G av t htav
          omega
        have hnd := hnodup
        rw [nodesRev] at hnd
        have hnodup' : (nodesRev pf.fromPv rest).Nodup :=
          (List.nodup_cons.mp hnd).2
        have htnot : t ∉ nodesRev pf.fromPv rest := (List.nodup_cons.mp hnd).1
        have hdisj' : ∀ x ∈ nodesRev pf.fromPv rest, x ∉ av ++ [t] := by
          intro x hx
          rw [List.mem_append, List.mem_singleton]
          rintro (hxa | hxt)
          · exact hdisj x (by rw [nodesRev]; exact List.mem_cons_of_mem _ hx) hxa
          · exact htnot (hxt ▸ hx)
        obtain ⟨r', hr', hlen'⟩ := ih pf.fromPv (av ++ [t]) fuel hrest hnodup' hdisj' hfuel'
        have hsome : ∀ v, (getPatchChainF G fuel v s (av ++ [t])).isSome :=
          fun v => getPatchChainF_isSome G fuel v s _ hfuel'
        obtain ⟨r, hres, hlen⟩ := chainLoopF_reaches _ hsome
          (G.fromPatches t) none pf r' hpf hr'
        exact ⟨r, hres, by simp only [List.length_cons]; omega⟩

theorem chain_suffix (G : PatchGraph) (s u : Fin G.n) :
    ∀ (c : List (Patchfile G.n)) (t : Fin G.n), ChainRev G t s c →
      (nodesRev t c).Nodup → u ∈ nodesRev t c →
      ∃ d, ChainRev G u s d ∧ (nodesRev u d).Nodup ∧ d.length ≤ c.length := by
  intro c
  induction c with
  | nil => intro t _ _ hmem; exact absurd hmem (by simp [nodesRev])
  | cons pf rest ih =>
    intro t hchain hnodup hmem
    obtain ⟨hpf, hrest⟩ := hchain
    rw [nodesRev] at hmem hnodup
    rcases List.mem_cons.mp hmem with heq | htail
    · exact ⟨pf :: rest, heq ▸ ⟨hpf, hrest⟩, by rw [heq, nodesRev]; exact hnodup,
        le_refl _⟩
    · obtain ⟨d, hd, hdn, hdl⟩ := ih pf.fromPv hrest (List.nodup_cons.mp hnodup).2 htail
      exact ⟨d, hd, hdn, by simp only [List.length_cons]; omega⟩

/-- Every chain can be shortened to a simple chain (distinct interior
nodes) between the same endpoints, no longer than the original. -/
theorem chain_simple (G : PatchGraph) (s : Fin G.n) :
    ∀ (N : Nat) (c : List (Patchfile G.n)) (t : Fin G.n), c.length ≤ N →
      ChainRev G t s c →
      ∃ c', ChainRev G t s c' ∧ (nodesRev t c').Nodup ∧
        c'.length ≤ c.length := by
  intro N
  induction N with
  | zero =>
    intro c t hlen hchain
    have : c = [] := List.length_eq_zero.mp (by omega)
    subst this
    exact ⟨[], hchain, by simp [nodesRev], le_refl _⟩
  | succ N ih =>
    intro c t hlen hchain
    cases c with
    | nil => exact ⟨[], hchain, by simp [nodesRev], le_refl _⟩
    | cons pf rest =>
      obtain ⟨hpf, hrest⟩ := hchain
      obtain ⟨rest', hrc, hrn, hrl⟩ := ih rest pf.fromPv
        (by simp only [List.length_cons] at hlen; omega) hrest
      by_cases ht : t ∈ nodesRev pf.fromPv rest'
      · obtain ⟨d, hd, hdn, hdl⟩ := chain_suffix G s t rest' pf.fromPv hrc hrn ht
        exact ⟨d, hd, hdn, by simp only [List.length_cons]; omega⟩
      · refine ⟨pf :: rest', ⟨hpf, hrc⟩, ?_, by simp only [List.length_cons]; omega⟩
        rw [nodesRev]
        exact List.nodup_cons.mpr ⟨ht, hrn⟩

theorem getPatchChain_eq_some (G : PatchGraph) (t s : Fin G.n) :
    getPatchChainF G (G.n + 1) t s [] = some (getPatchChain G t s) := by
  have hfuel : unvisited G ([] : List (Fin G.n)) < G.n + 1 := by
    have := unvisited_le G ([] : List (Fin G.n))
    omega
  have hs := getPatchChainF_isSome G (G.n + 1) t s [] hfuel
  cases hv : getPatchChainF G (G.n + 1) t s [] with
  | none => rw [hv] at hs; simp at hs
  | some v => rw [getPatchChain, hv]; rfl

/-- C1: if at least one directed path of patch edges leads from `s` to
`t`, then `getPatchChain(t, s)` returns a valid chain from `s` to `t`
whose length is at most the length of every path from `s` to `t` (the
result is moreover a deterministic function of the graph, whose edge
lists carry the declared `fromPatches` order). -/
theorem claim_C1_shortest_chain (G : PatchGraph) (s t : Fin G.n)
    (c₀ : List (Patchfile G.n)) (h : ChainRev G t s c₀) :
    ∃ r, getPatchChain G t s = some r ∧ ChainRev G t s r.reverse ∧
      ∀ c, ChainRev G t s c → r.length ≤ c.length := by
  have hfuel : unvisited G ([] : List (Fin G.n)) < G.n + 1 := by
    have := unvisited_le G ([] : List (Fin G.n))
    omega
  obtain ⟨c₀', hc₀', hn₀', hl₀'⟩ :=
    chain_simple G s c₀.length c₀ t (le_refl _) h
  obtain ⟨r, hr, _⟩ := getPatchChainF_complete G s c₀' t [] (G.n + 1)
    hc₀' hn₀' (by simp) hfuel
  have hoff : getPatchChain G t s = some r := by
    have hb := getPatchChain_eq_some G t s
    rw [hr] at hb
    simp only [Option.some.injEq] at hb
    exact hb.symm
  refine ⟨r, hoff, getPatchChainF_sound G (G.n + 1) t s [] r hr, ?_⟩
  intro c hc
  obtain ⟨c', hc', hn', hl'⟩ := chain_simple G s c.length c t (le_refl _) hc
  obtain ⟨r₂, hr₂, hlen₂⟩ := getPatchChainF_complete G s c' t [] (G.n + 1)
    hc' hn' (by simp) hfuel
  have heq : r = r₂ := by
    have := hr.symm.trans hr₂
    simpa using this
  rw [heq]
  omega

theorem claim_C1_witness :
    ChainRev exGraphBranch ⟨3, by decide⟩ ⟨0, by decide⟩
      [⟨⟨2, by decide⟩, ⟨3, by decide⟩, 2⟩, ⟨⟨1, by decide⟩, ⟨2, by decide⟩, 1⟩,
       ⟨⟨0, by decide⟩, ⟨1, by decide⟩, 0⟩] ∧
    (∃ r, getPatchChain exGraphBranch ⟨3, by decide⟩ ⟨0, by decide⟩ = some r ∧
      ChainRev exGraphBranch ⟨3, by decide⟩ ⟨0, by decide⟩ r.reverse ∧
      ∀ c, ChainRev exGraphBranch ⟨3, by decide⟩ ⟨0, by decide⟩ c →
        r.length ≤ c.length) :=
  ⟨by decide, claim_C1_shortest_chain exGraphBranch ⟨0, by decide⟩ ⟨3, by decide⟩
    [⟨⟨2, by decide⟩, ⟨3, by decide⟩, 2⟩, ⟨⟨1, by decide⟩, ⟨2, by decide⟩, 1⟩,
     ⟨⟨0, by decide⟩, ⟨1, by decide⟩, 0⟩] (by decide)⟩

/-- C4: `getPatchChain(target, source)` returns `None` exactly when no
directed path of patch edges leads from `source` to `target`, and
returns the zero-length chain exactly when `target = source`. -/
theorem claim_C4_none_iff_no_path (G : PatchGraph) (t s : Fin G.n) :
    (getPatchChain G t s = none ↔ ¬ ∃ c, ChainRev G t s c) ∧
    (getPatchChain G t s = some [] ↔ t = s) := by
  have hfuel : unvisited G ([] : List (Fin G.n)) < G.n + 1 := by
    have := unvisited_le G ([] : List (Fin G.n))
    omega
  have hb := getPatchChain_eq_some G t s
  constructor
  · constructor
    · intro hnone ⟨c, hc⟩
      obtain ⟨c', hc', hn', _⟩ := chain_simple G s c.length c t (le_refl _) hc
      obtain ⟨r, hr, _⟩ := getPatchChainF_complete G s c' t [] (G.n + 1)
        hc' hn' (by simp) hfuel
      rw [hnone, hr] at hb
      simp at hb
    · intro hno
      cases hv : getPatchChain G t s with
      | none => rfl
      | some r =>
        rw [hv] at hb
        exact absurd ⟨r.reverse, getPatchChainF_sound G (G.n + 1) t s [] r hb⟩ hno
  · constructor
    · intro hempty
      rw [hempty] at hb
      have := getPatchChainF_sound G (G.n + 1) t s [] [] hb
      exact this
    · intro hts
      have heq : getPatchChainF G (G.n + 1) t s [] = some (some []) := by
        rw [getPatchChainF, if_pos hts]
      rw [heq] at hb
      simp only [Option.some.injEq] at hb
      exact hb.symm

theorem planLoopF_isSome {n : Nat} (recur : Fin n → Option (PlanTriple n))
    (hrec : ∀ v, (recur v).isSome) :
    ∀ (pfs : List (Patchfile n)) (self : Fin n) (best : PlanTriple n),
      (planLoopF recur self pfs best).isSome := by
  intro pfs
  induction pfs with
  | nil => intro self best; simp [planLoopF]
  | cons pf rest ih =>
    intro self best
    have h1 := hrec pf.fromPv
    rw [planLoopF]
    cases hres : recur pf.fromPv with
    | none => rw [hres] at h1; simp at h1
    | some trip =>
      obtain ⟨sf, spv, plan?⟩ := trip
      dsimp only
      cases plan? with
      | none => exact ih self best
      | some plan =>
        dsimp only
        cases best.2.2 with
        | none => exact ih self _
        | some bp =>
          dsimp only
          split
          · exact ih self _
          · exact ih self _

/-- Termination of `getRecreateFilePlan` at any recursion-depth budget
exceeding the count of not-yet-visited nodes. -/
theorem getRecreateFilePlanF_isSome (G : PatchGraph) (A : Anchors G.n)
    (st : MatState G.n) :
    ∀ (fuel : Nat) (self : Fin G.n) (av : List (Fin G.n)),
      unvisited G av < fuel →
      (getRecreateFilePlanF G A st fuel self av).isSome := by
  intro fuel
  induction fuel with
  | zero => intro self av h; omega
  | succ fuel ih =>
    intro self av h
    rw [getRecreateFilePlanF]
    cases htf : st.tempFile self with
    | some t => simp
    | none =>
      dsimp only
      by_cases hv : self ∈ av
      · rw [if_pos hv]; simp
      · rw [if_neg hv]
        cases hcur : A.packageCurrent self with
        | some f => simp
        | none =>
          dsimp only
          cases hbase : A.packageBase self with
          | some f => simp
          | none =>
            dsimp only
            have hlt : unvisited G (av ++ [self]) < fuel := by
              have := unvisited_append_lt G av self hv
              omega
            exact planLoopF_isSome _ (fun v => ih v (av ++ [self]) hlt)
              (G.fromPatches self) self (none, none, none)

theorem getPatchChain_sound (G : PatchGraph) (t s : Fin G.n)
    (r : List (Patchfile G.n)) (h : getPatchChain G t s = some r) :
    ChainRev G t s r.reverse := by
  have hb := getPatchChain_eq_some G t s
  rw [h] at hb
  exact getPatchChainF_sound G (G.n + 1) t s [] r hb

theorem getPatchChain_none_of_no_path (G : PatchGraph) (t s : Fin G.n)
    (hno : ¬ ∃ c, ChainRev G t s c) : getPatchChain G t s = none := by
  cases hv : getPatchChain G t s with
  | none => rfl
  | some r => exact absurd ⟨r.reverse, getPatchChain_sound G t s r hv⟩ hno

/-- C3: on every finite patch graph, cyclic ones included, the recursive
searches `getPatchChain` and `getRecreateFilePlan` complete within a
recursion depth bounded by the number of not-yet-visited nodes (the
visited list grows monotonically along each recursion branch), and a
query for an unreachable source returns `None`. -/
theorem claim_C3_termination (G : PatchGraph) (A : Anchors G.n)
    (st : MatState G.n) (t s : Fin G.n) (av : List (Fin G.n)) (fuel : Nat)
    (h : unvisited G av < fuel) :
    (getPatchChainF G fuel t s av).isSome ∧
    (getRecreateFilePlanF G A st fuel t av).isSome ∧
    ((¬ ∃ c, ChainRev G t s c) → getPatchChain G t s = none) :=
  ⟨getPatchChainF_isSome G fuel t s av h,
   getRecreateFilePlanF_isSome G A st fuel t av h,
   getPatchChain_none_of_no_path G t s⟩

theorem claim_C3_witness :
    unvisited exGraphCycle [] < 4 ∧
    ((getPatchChainF exGraphCycle 4 ⟨2, by decide⟩ ⟨0, by decide⟩ []).isSome ∧
     (getRecreateFilePlanF exGraphCycle exMatAnchors exMatState 4
        ⟨2, by decide⟩ []).isSome ∧
     ((¬ ∃ c, ChainRev exGraphCycle ⟨2, by decide⟩ ⟨0, by decide⟩ c) →
       getPatchChain exGraphCycle ⟨2, by decide⟩ ⟨0, by decide⟩ = none)) :=
  ⟨by decide, claim_C3_termination exGraphCycle exMatAnchors exMatState
    ⟨2, by decide⟩ ⟨0, by decide⟩ [] 4 (by decide)⟩

/-- C2 (code bug): on a node from which no anchored file is reachable,
`getRecreateFilePlan` returns `(None, None, None)`, and `getFile` then
evaluates `startFile.getExtension()` on `None` (line 140) and raises
`AttributeError` (modeled by the outer `none`) instead of returning
`None` as its docstring and the in-function comment promise; the claimed
behavior holds only for decompression and apply failures. -/
theorem claim_C2_getFile_crash :
    getRecreateFilePlan exGraphCycle exMatAnchors exMatState ⟨2, by decide⟩ =
      (none, none, none) ∧
    getFile exGraphCycle exMatAnchors exMatEnv exMatState ⟨2, by decide⟩ =
      (none, exMatState, []) := by
  constructor
  · decide
  · rfl

theorem planLoopF_shape {n : Nat} (recur : Fin n → Option (PlanTriple n))
    (self : Fin n) :
    ∀ (pfs : List (Patchfile n)) (best res : PlanTriple n),
      (best.2.2 = none → best.1 = none) →
      (∀ pl, best.2.2 = some pl → ∃ pf pl', pl = pl' ++ [(pf, self)]) →
      planLoopF recur self pfs best = some res →
      (res.2.2 = none → res.1 = none) ∧
      (∀ pl, res.2.2 = some pl → ∃ pf pl', pl = pl' ++ [(pf, self)]) := by
  intro pfs
  induction pfs with
  | nil =>
    intro best res h1 h2 hr
    simp only [planLoopF, Option.some.injEq] at hr
    exact hr ▸ ⟨h1, h2⟩
  | cons pf rest ih =>
    intro best res h1 h2 hr
    rw [planLoopF] at hr
    cases hcall : recur pf.fromPv with
    | none => rw [hcall] at hr; exact absurd hr (by simp)
    | some trip =>
      rw [hcall] at hr
      obtain ⟨sf', spv', pl'?⟩ := trip
      dsimp only at hr
      cases pl'? with
      | none => exact ih best res h1 h2 hr
      | some plan =>
        dsimp only at hr
        cases hb : best.2.2 with
        | none =>
          rw [hb] at hr
          dsimp only at hr
          refine ih _ res (by simp) ?_ hr
          intro pl hpl
          simp only [Option.some.injEq] at hpl
          exact ⟨pf, plan, hpl.symm⟩
        | some bp =>
          rw [hb] at hr
          dsimp only at hr
          by_cases hlt : (plan ++ [(pf, self)]).length < bp.length
          · rw [if_pos hlt] at hr
            refine ih _ res (by simp) ?_ hr
            intro pl hpl
            simp only [Option.some.injEq] at hpl
            exact ⟨pf, plan, hpl.symm⟩
          · rw [if_neg hlt] at hr
            exact ih best res h1 h2 hr

theorem getRecreateFilePlan_eq_some (G : PatchGraph) (A : Anchors G.n)
    (st : MatState G.n) (v : Fin G.n) :
    getRecreateFilePlanF G A st (G.n + 1) v [] =
      some (getRecreateFilePlan G A st v) := by
  have hfuel : unvisited G ([] : List (Fin G.n)) < G.n + 1 := by
    have := unvisited_le G ([] : List (Fin G.n))
    omega
  have hs := getRecreateFilePlanF_isSome G A st (G.n + 1) v [] hfuel
  cases hv : getRecreateFilePlanF G A st (G.n + 1) v [] with
  | none => rw [hv] at hs; simp at hs
  | some res => rw [getRecreateFilePlan, hv]; rfl

/-- Structure of the returned plan triple: a missing plan comes with a
missing start file (the `(None, None, None)` answer), and an empty plan
means the node itself supplied the start file (`startPv = self`). -/
theorem getRecreateFilePlan_shape (G : PatchGraph) (A : Anchors G.n)
    (st : MatState G.n) (v : Fin G.n) :
    ((getRecreateFilePlan G A st v).2.2 = none →
      (getRecreateFilePlan G A st v).1 = none) ∧
    ((getRecreateFilePlan G A st v).2.2 = some [] →
      (getRecreateFilePlan G A st v).2.1 = some v) := by
  have hb := getRecreateFilePlan_eq_some G A st v
  rw [getRecreateFilePlanF] at hb
  cases htf : st.tempFile v with
  | some t =>
    rw [htf] at hb
    simp only [Option.some.injEq] at hb
    rw [← hb]
    exact ⟨by simp, by simp⟩
  | none =>
    rw [htf] at hb
    dsimp only at hb
    by_cases hv : v ∈ ([] : List (Fin G.n))
    · simp at hv
    · rw [if_neg hv] at hb
      cases hcur : A.packageCurrent v with
      | some fc =>
        rw [hcur] at hb
        simp only [Option.some.injEq] at hb
        rw [← hb]
        exact ⟨by simp, by simp⟩
      | none =>
        rw [hcur] at hb
        dsimp only at hb
        cases hbase : A.packageBase v with
        | some fb =>
          rw [hbase] at hb
          simp only [Option.some.injEq] at hb
          rw [← hb]
          exact ⟨by simp, by simp⟩
        | none =>
          rw [hbase] at hb
          dsimp only at hb
          obtain ⟨hs1, hs2⟩ := planLoopF_shape _ v (G.fromPatches v)
            (none, none, none) (getRecreateFilePlan G A st v)
            (by simp) (by simp) hb
          refine ⟨hs1, ?_⟩
          intro hpl
          obtain ⟨pf, pl', hform⟩ := hs2 [] hpl
          exact absurd hform.symm (by simp)

theorem execPlan_notPz {n : Nat} (E : MatEnv n) :
    ∀ (plan : List (Patchfile n × Fin n)) (prev : MFile) (st : MatState n)
      (f : MFile) (pv : Fin n) (st' : MatState n) (ops : List (MatOp n)),
      execPlan E plan prev st = (some (f, pv), st', ops) → f.isPz = false := by
  intro plan
  induction plan with
  | nil => intro prev st f pv st' ops h; exact absurd h (by simp [execPlan])
  | cons hd rest ih =>
    intro prev st f pv st' ops h
    obtain ⟨pf, pv₀⟩ := hd
    rw [execPlan] at h
    by_cases happ : E.applyOk pf prev
    · rw [if_pos happ] at h
      cases rest with
      | nil =>
        simp only [Prod.mk.injEq, Option.some.injEq] at h
        obtain ⟨⟨hf, _⟩, _⟩ := h
        rw [← hf]
      | cons r rs =>
        dsimp only at h
        simp only [Prod.mk.injEq] at h
        exact ih _ _ f pv _ _ (by rw [← h.1])
    · rw [if_neg happ] at h
      exact absurd h (by simp)

theorem getRecreateFilePlan_of_tempFile (G : PatchGraph) (A : Anchors G.n)
    (st : MatState G.n) (v : Fin G.n) (f : MFile) (h : st.tempFile v = some f) :
    getRecreateFilePlan G A st v = (some f, some v, some []) := by
  have hb := getRecreateFilePlan_eq_some G A st v
  rw [getRecreateFilePlanF, h] at hb
  simp only [Option.some.injEq] at hb
  exact hb.symm

/-- A node whose `tempFile` is already set (and is not compressed, as
every temp made in a session is) is a pure cache hit: same file back,
no state change, no operation performed. -/
theorem getFile_of_tempFile (G : PatchGraph) (A : Anchors G.n) (E : MatEnv G.n)
    (st : MatState G.n) (v : Fin G.n) (f : MFile)
    (h : st.tempFile v = some f) (hpz : f.isPz = false) :
    getFile G A E st v = (some (some f), st, []) := by
  have hp := getRecreateFilePlan_of_tempFile G A st v f h
  unfold getFile
  rw [hp]
  dsimp only
  rw [hpz]
  simp only [Bool.false_eq_true, if_false]
  rfl

/-- Case analysis of one `getFile` call: either it succeeds without
touching the state (anchored uncompressed start, empty plan), or it
succeeds leaving its own result cached in `self.tempFile`, or it does
not succeed (crash or `None`). -/
theorem getFile_cases (G : PatchGraph) (A : Anchors G.n) (E : MatEnv G.n)
    (st : MatState G.n) (v : Fin G.n) :
    (∃ f ops st', getFile G A E st v = (some (some f), st', ops) ∧
       ((st' = st ∧ ops = []) ∨ (st'.tempFile v = some f ∧ f.isPz = false))) ∨
    (getFile G A E st v).1 = none ∨ (getFile G A E st v).1 = some none := by
  have hshape := getRecreateFilePlan_shape G A st v
  unfold getFile
  cases hplan : getRecreateFilePlan G A st v with
  | mk sf? rest =>
    rw [hplan] at hshape
    obtain ⟨spv?, pl?⟩ := rest
    cases sf? with
    | none => simp
    | some sf =>
      dsimp only
      cases hpz : sf.isPz with
      | true =>
        rw [if_pos rfl]
        cases spv? with
        | none => simp
        | some spv =>
          dsimp only
          cases htf : st.tempFile spv with
          | some t => simp
          | none =>
            dsimp only
            by_cases hdk : E.decompressOk sf
            · rw [if_pos hdk]
              cases pl? with
              | none =>
                obtain ⟨hs1, _⟩ := hshape
                exact absurd (hs1 rfl) (by simp)
              | some pl =>
                cases pl with
                | nil =>
                  obtain ⟨_, hs2⟩ := hshape
                  have hspv : spv = v := by
                    have := hs2 rfl
                    simpa using this
                  subst hspv
                  rw [getFileRest]
                  refine Or.inl ⟨⟨st.nextTemp, false⟩, [MatOp.decompress sf], _, rfl, Or.inr ⟨?_, rfl⟩⟩
                  exact Function.update_same spv _ _
                | cons p ps =>
                  rw [getFileRest]
                  dsimp only
                  cases hexec : execPlan E (p :: ps) ⟨st.nextTemp, false⟩
                      { tempFile := Function.update st.tempFile spv
                          (some ⟨st.nextTemp, false⟩),
                        nextTemp := st.nextTemp + 1 } with
                  | mk res r2 =>
                    cases res with
                    | none => simp
                    | some pr =>
                      obtain ⟨prev, pv⟩ := pr
                      dsimp only
                      by_cases hcond : pv = v ∧ r2.1.tempFile v = some prev
                      · rw [if_pos hcond]
                        refine Or.inl ⟨prev, _, r2.1, rfl, Or.inr ⟨hcond.2, ?_⟩⟩
                        exact execPlan_notPz E (p :: ps) _ _ prev pv r2.1 r2.2
                          (by rw [hexec])
                      · rw [if_neg hcond]
                        simp
            · rw [if_neg hdk]
              simp
      | false =>
        rw [if_neg (by simp)]
        cases pl? with
        | none =>
          rw [getFileRest]
          exact Or.inl ⟨sf, [], st, rfl, Or.inl ⟨rfl, rfl⟩⟩
        | some pl =>
          cases pl with
          | nil =>
            rw [getFileRest]
            exact Or.inl ⟨sf, [], st, rfl, Or.inl ⟨rfl, rfl⟩⟩
          | cons p ps =>
            rw [getFileRest]
            dsimp only
            cases hexec : execPlan E (p :: ps) sf st with
            | mk res r2 =>
              cases res with
              | none => simp
              | some pr =>
                obtain ⟨prev, pv⟩ := pr
                dsimp only
                by_cases hcond : pv = v ∧ r2.1.tempFile v = some prev
                · rw [if_pos hcond]
                  refine Or.inl ⟨prev, _, r2.1, rfl, Or.inr ⟨hcond.2, ?_⟩⟩
                  exact execPlan_notPz E (p :: ps) _ _ prev pv r2.1 r2.2
                    (by rw [hexec])
                · rw [if_neg hcond]
                  simp

/-- C7: within a session, a second `getFile` on a node after a
successful materialization returns the same path, with no state change
and no patch applied or file decompressed (empty operation list); this
holds for every node and every session state, anchored nodes included. -/
theorem claim_C7_temp_reuse (G : PatchGraph) (A : Anchors G.n) (E : MatEnv G.n)
    (st : MatState G.n) (v : Fin G.n) (f : MFile)
    (h : (getFile G A E st v).1 = some (some f)) :
    getFile G A E (getFile G A E st v).2.1 v =
      (some (some f), (getFile G A E st v).2.1, []) := by
  rcases getFile_cases G A E st v with ⟨f', ops, st', hEq, hca⟩ | hbad | hbad
  · have hf : f' = f := by
      rw [hEq] at h
      simpa using h
    subst hf
    rcases hca with ⟨hst, hops⟩ | ⟨htf, hpz⟩
    · subst hst
      subst hops
      rw [hEq]
      exact hEq
    · rw [hEq]
      exact getFile_of_tempFile G A E st' v f' htf hpz
  · simp [h] at hbad
  · simp [h] at hbad

theorem claim_C7_witness :
    (getFile exMatGraph exMatAnchors exMatEnv exMatState ⟨2, by decide⟩).1 =
      some (some ⟨1, false⟩) ∧
    getFile exMatGraph exMatAnchors exMatEnv
        (getFile exMatGraph exMatAnchors exMatEnv exMatState ⟨2, by decide⟩).2.1
        ⟨2, by decide⟩ =
      (some (some ⟨1, false⟩),
       (getFile exMatGraph exMatAnchors exMatEnv exMatState ⟨2, by decide⟩).2.1,
       []) :=
  ⟨by decide, claim_C7_temp_reuse exMatGraph exMatAnchors exMatEnv exMatState
    ⟨2, by decide⟩ ⟨1, false⟩ (by decide)⟩

theorem modifyNode_length (l : List NodeRec) (i : Nat) (f : NodeRec → NodeRec) :
    (modifyNode l i f).length = l.length := by
  induction l generalizing i with
  | nil => rfl
  | cons nd rest ih =>
    cases i with
    | zero => rfl
    | succ i => simp [modifyNode, ih i]

theorem getD_modifyNode_self (l : List NodeRec) (i : Nat) (f : NodeRec → NodeRec)
    (d : NodeRec) (h : i < l.length) :
    (modifyNode l i f).getD i d = f (l.getD i d) := by
  induction l generalizing i with
  | nil => simp at h
  | cons nd rest ih =>
    cases i with
    | zero => rfl
    | succ i => exact ih i (by simpa using h)

theorem getD_modifyNode_ne (l : List NodeRec) (i j : Nat) (f : NodeRec → NodeRec)
    (d : NodeRec) (h : j ≠ i) :
    (modifyNode l i f).getD j d = l.getD j d := by
  induction l generalizing i j with
  | nil => simp [modifyNode]
  | cons nd rest ih =>
    cases i with
    | zero =>
      cases j with
      | zero => exact absurd rfl h
      | succ j => rfl
    | succ i =>
      cases j with
      | zero => rfl
      | succ j => exact ih i j (fun hc => h (by omega))

theorem lookupNode_some_lt (l : List NodeRec) (c : Coord) (h : Nat) (i : Nat)
    (hl : lookupNode l c h = some i) : i < l.length := by
  induction l generalizing i with
  | nil => simp [lookupNode] at hl
  | cons nd rest ih =>
    rw [lookupNode] at hl
    by_cases hm : nd.coord = c ∧ nd.hash = h
    · rw [if_pos hm] at hl
      cases hl
      simp
    · rw [if_neg hm] at hl
      cases hrec : lookupNode rest c h with
      | none => rw [hrec] at hl; simp at hl
      | some i' =>
        rw [hrec] at hl
        simp only [Option.map_some', Option.some.injEq] at hl
        have := ih i' hrec
        simp only [List.length_cons]
        omega

theorem lookupNode_some_spec (l : List NodeRec) (c : Coord) (h : Nat) (i : Nat)
    (hl : lookupNode l c h = some i) :
    (l.getD i default).coord = c ∧ (l.getD i default).hash = h := by
  induction l generalizing i with
  | nil => simp [lookupNode] at hl
  | cons nd rest ih =>
    rw [lookupNode] at hl
    by_cases hm : nd.coord = c ∧ nd.hash = h
    · rw [if_pos hm] at hl
      cases hl
      exact hm
    · rw [if_neg hm] at hl
      cases hrec : lookupNode rest c h with
      | none => rw [hrec] at hl; simp at hl
      | some i' =>
        rw [hrec] at hl
        simp only [Option.map_some', Option.some.injEq] at hl
        rw [← hl]
        exact ih i' hrec

theorem lookupNode_none_spec (l : List NodeRec) (c : Coord) (h : Nat)
    (hl : lookupNode l c h = none) :
    ∀ nd ∈ l, ¬(nd.coord = c ∧ nd.hash = h) := by
  induction l with
  | nil => intro nd hnd; simp at hnd
  | cons nd₀ rest ih =>
    intro nd hnd
    rw [lookupNode] at hl
    by_cases hm : nd₀.coord = c ∧ nd₀.hash = h
    · rw [if_pos hm] at hl; simp at hl
    · rw [if_neg hm] at hl
      rcases List.mem_cons.mp hnd with heq | htail
      · exact heq ▸ hm
      · cases hrec : lookupNode rest c h with
        | none => exact ih hrec nd htail
        | some i' => rw [hrec] at hl; simp at hl

theorem lookupNode_append_some (l l' : List NodeRec) (c : Coord) (h : Nat)
    (i : Nat) (hl : lookupNode l c h = some i) :
    lookupNode (l ++ l') c h = some i := by
  induction l generalizing i with
  | nil => simp [lookupNode] at hl
  | cons nd rest ih =>
    rw [lookupNode] at hl
    rw [List.cons_append, lookupNode]
    by_cases hm : nd.coord = c ∧ nd.hash = h
    · rw [if_pos hm] at hl ⊢; exact hl
    · rw [if_neg hm] at hl ⊢
      cases hrec : lookupNode rest c h with
      | none => rw [hrec] at hl; simp at hl
      | some i' =>
        rw [hrec] at hl
        rw [ih i' hrec]
        exact hl

theorem lookupNode_snoc_none (l : List NodeRec) (c : Coord) (h : Nat)
    (nd : NodeRec) (hnd : nd.coord = c ∧ nd.hash = h)
    (hl : lookupNode l c h = none) :
    lookupNode (l ++ [nd]) c h = some l.length := by
  induction l with
  | nil => simp [lookupNode, hnd]
  | cons nd₀ rest ih =>
    rw [lookupNode] at hl
    rw [List.cons_append, lookupNode]
    by_cases hm : nd₀.coord = c ∧ nd₀.hash = h
    · rw [if_pos hm] at hl; simp at hl
    · rw [if_neg hm] at hl ⊢
      cases hrec : lookupNode rest c h with
      | none => rw [ih hrec]; simp
      | some i' => rw [hrec] at hl; simp at hl

theorem lookupNode_modify (l : List NodeRec) (i : Nat) (f : NodeRec → NodeRec)
    (hc : ∀ nd, (f nd).coord = nd.coord) (hh : ∀ nd, (f nd).hash = nd.hash)
    (c : Coord) (h : Nat) :
    lookupNode (modifyNode l i f) c h = lookupNode l c h := by
  induction l generalizing i with
  | nil => rfl
  | cons nd rest ih =>
    cases i with
    | zero =>
      rw [modifyNode, lookupNode, lookupNode, hc nd, hh nd]
    | succ i =>
      rw [modifyNode, lookupNode, lookupNode, ih i]

theorem getPackageVersion_of_found (st : PMState) (c : Coord) (h : Nat) (i : Nat)
    (hl : lookupNode st.nodes c h = some i) :
    getPackageVersion st c h = (i, st) := by
  rw [getPackageVersion, hl]

theorem getPackageVersion_lookup (st : PMState) (c : Coord) (h : Nat) :
    lookupNode (getPackageVersion st c h).2.nodes c h =
      some (getPackageVersion st c h).1 := by
  rw [getPackageVersion]
  cases hl : lookupNode st.nodes c h with
  | some i => exact hl
  | none => exact lookupNode_snoc_none st.nodes c h _ ⟨rfl, rfl⟩ hl

theorem getPackageVersion_edges (st : PMState) (c : Coord) (h : Nat) :
    (getPackageVersion st c h).2.edges = st.edges := by
  rw [getPackageVersion]
  cases hl : lookupNode st.nodes c h with
  | some i => rfl
  | none => rfl

theorem getPackageVersion_lt (st : PMState) (c : Coord) (h : Nat) :
    (getPackageVersion st c h).1 < (getPackageVersion st c h).2.nodes.length :=
  lookupNode_some_lt _ c h _ (getPackageVersion_lookup st c h)

theorem getPackageVersion_key (st : PMState) (c : Coord) (h : Nat) :
    ((getPackageVersion st c h).2.nodes.getD (getPackageVersion st c h).1
        default).coord = c ∧
    ((getPackageVersion st c h).2.nodes.getD (getPackageVersion st c h).1
        default).hash = h :=
  lookupNode_some_spec _ c h _ (getPackageVersion_lookup st c h)

theorem nodesKeep_refl (l : List NodeRec) : NodesKeep l l :=
  ⟨le_refl _, fun _ _ => ⟨rfl, rfl, fun _ he => he, fun _ he => he⟩⟩

theorem nodesKeep_trans {l₁ l₂ l₃ : List NodeRec}
    (h₁ : NodesKeep l₁ l₂) (h₂ : NodesKeep l₂ l₃) : NodesKeep l₁ l₃ := by
  obtain ⟨hlen₁, hk₁⟩ := h₁
  obtain ⟨hlen₂, hk₂⟩ := h₂
  refine ⟨le_trans hlen₁ hlen₂, fun i hi => ?_⟩
  obtain ⟨hc₁, hh₁, ht₁, hf₁⟩ := hk₁ i hi
  obtain ⟨hc₂, hh₂, ht₂, hf₂⟩ := hk₂ i (lt_of_lt_of_le hi hlen₁)
  exact ⟨hc₂.trans hc₁, hh₂.trans hh₁,
    fun e he => ht₂ e (ht₁ e he), fun e he => hf₂ e (hf₁ e he)⟩

theorem nodesKeep_append (l ext : List NodeRec) : NodesKeep l (l ++ ext) := by
  refine ⟨by simp, fun i hi => ?_⟩
  rw [List.getD_append _ _ _ _ hi]
  exact ⟨rfl, rfl, fun _ he => he, fun _ he => he⟩

theorem nodesKeep_modify (l : List NodeRec) (i : Nat) (f : NodeRec → NodeRec)
    (hc : ∀ nd, (f nd).coord = nd.coord) (hh : ∀ nd, (f nd).hash = nd.hash)
    (ht : ∀ nd e, e ∈ nd.toPatches → e ∈ (f nd).toPatches)
    (hf : ∀ nd e, e ∈ nd.fromPatches → e ∈ (f nd).fromPatches) :
    NodesKeep l (modifyNode l i f) := by
  refine ⟨by rw [modifyNode_length], fun j hj => ?_⟩
  by_cases hij : j = i
  · subst hij
    rw [getD_modifyNode_self l j f default hj]
    exact ⟨hc _, hh _, ht _, hf _⟩
  · rw [getD_modifyNode_ne l i j f default hij]
    exact ⟨rfl, rfl, fun _ he => he, fun _ he => he⟩

theorem getPackageVersion_keep (st : PMState) (c : Coord) (h : Nat) :
    NodesKeep st.nodes (getPackageVersion st c h).2.nodes := by
  rw [getPackageVersion]
  cases hl : lookupNode st.nodes c h with
  | some i => exact nodesKeep_refl _
  | none => exact nodesKeep_append _ _

theorem edgeInv_keep (st st' : PMState) (hinv : EdgeInv st)
    (hedges : st'.edges = st.edges) (hkeep : NodesKeep st.nodes st'.nodes) :
    EdgeInv st' := by
  intro k hk
  rw [hedges] at hk ⊢
  obtain ⟨hf1, hf2, hf3, hf4, hf5, hf6⟩ := hinv k hk
  obtain ⟨hlen, hpt⟩ := hkeep
  obtain ⟨hc₁, hh₁, ht₁, hfr₁⟩ := hpt _ hf1
  obtain ⟨hc₂, hh₂, ht₂, hfr₂⟩ := hpt _ hf2
  exact ⟨lt_of_lt_of_le hf1 hlen, lt_of_lt_of_le hf2 hlen,
    ht₁ k hf3, hfr₂ k hf4, hh₁.trans hf5, hh₂.trans hf6⟩

theorem keyUnique_keep (st st' : PMState) (hku : KeyUnique st)
    (hlen : st'.nodes.length = st.nodes.length)
    (hpt : ∀ i, i < st.nodes.length →
      (st'.nodes.getD i default).coord = (st.nodes.getD i default).coord ∧
      (st'.nodes.getD i default).hash = (st.nodes.getD i default).hash) :
    KeyUnique st' := by
  intro i hi j hj hc hh
  rw [hlen] at hi hj
  obtain ⟨hci, hhi⟩ := hpt i hi
  obtain ⟨hcj, hhj⟩ := hpt j hj
  exact hku i hi j hj (by rw [← hci, ← hcj, hc]) (by rw [← hhi, ← hhj, hh])

theorem getPackageVersion_keyUnique (st : PMState) (c : Coord) (h : Nat)
    (hku : KeyUnique st) : KeyUnique (getPackageVersion st c h).2 := by
  rw [getPackageVersion]
  cases hl : lookupNode st.nodes c h with
  | some i => exact hku
  | none =>
    intro i hi j hj hc hh
    simp only [List.length_append, List.length_singleton] at hi hj
    have hnone := lookupNode_none_spec st.nodes c h hl
    have hmem : ∀ m, m < st.nodes.length →
        st.nodes.getD m default ∈ st.nodes := by
      intro m hm
      rw [List.getD_eq_getElem _ _ hm]
      exact List.getElem_mem _
    have hnew : ∀ m, m = st.nodes.length →
        ((st.nodes ++ [(⟨c, h, [], [], none, none, none⟩ : NodeRec)]).getD m
          default).coord = c ∧
        ((st.nodes ++ [(⟨c, h, [], [], none, none, none⟩ : NodeRec)]).getD m
          default).hash = h := by
      intro m hm
      subst hm
      rw [List.getD_append_right _ _ _ _ (le_refl _)]
      simp
    by_cases hi' : i < st.nodes.length
    · by_cases hj' : j < st.nodes.length
      · rw [List.getD_append _ _ _ _ hi', List.getD_append _ _ _ _ hj']
          at hc hh
        exact hku i hi' j hj' hc hh
      · have hjl : j = st.nodes.length := by omega
        obtain ⟨hcj, hhj⟩ := hnew j hjl
        rw [List.getD_append _ _ _ _ hi'] at hc hh
        rw [hcj] at hc
        rw [hhj] at hh
        exact absurd ⟨hc, hh⟩ (hnone _ (hmem i hi'))
    · have hil : i = st.nodes.length := by omega
      obtain ⟨hci, hhi⟩ := hnew i hil
      by_cases hj' : j < st.nodes.length
      · rw [List.getD_append _ _ _ _ hj'] at hc hh
        rw [hci] at hc
        rw [hhi] at hh
        exact absurd ⟨hc.symm, hh.symm⟩ (hnone _ (hmem j hj'))
      · omega

theorem lookupNode_gpv_mono (st : PMState) (c' : Coord) (h' : Nat)
    (c : Coord) (h : Nat) (i : Nat) (hl : lookupNode st.nodes c h = some i) :
    lookupNode (getPackageVersion st c' h').2.nodes c h = some i := by
  rw [getPackageVersion]
  cases hl' : lookupNode st.nodes c' h' with
  | some i' => exact hl
  | none => exact lookupNode_append_some _ _ c h i hl

theorem recordPatchfile_eq (st : PMState) (p : PatchDecl) :
    recordPatchfile st p =
      ⟨modifyNode
          (getPackageVersion
            ⟨modifyNode (getPackageVersion st p.coord p.sourceHash).2.nodes
                (getPackageVersion st p.coord p.sourceHash).1
                (fun nd => { nd with toPatches := nd.toPatches ++
                  [(getPackageVersion st p.coord p.sourceHash).2.edges.length] }),
              (getPackageVersion st p.coord p.sourceHash).2.edges⟩
            p.coord p.targetHash).2.nodes
          (getPackageVersion
            ⟨modifyNode (getPackageVersion st p.coord p.sourceHash).2.nodes
                (getPackageVersion st p.coord p.sourceHash).1
                (fun nd => { nd with toPatches := nd.toPatches ++
                  [(getPackageVersion st p.coord p.sourceHash).2.edges.length] }),
              (getPackageVersion st p.coord p.sourceHash).2.edges⟩
            p.coord p.targetHash).1
          (fun nd => { nd with fromPatches := nd.fromPatches ++
            [(getPackageVersion st p.coord p.sourceHash).2.edges.length] }),
       (getPackageVersion
            ⟨modifyNode (getPackageVersion st p.coord p.sourceHash).2.nodes
                (getPackageVersion st p.coord p.sourceHash).1
                (fun nd => { nd with toPatches := nd.toPatches ++
                  [(getPackageVersion st p.coord p.sourceHash).2.edges.length] }),
              (getPackageVersion st p.coord p.sourceHash).2.edges⟩
            p.coord p.targetHash).2.edges ++
         [⟨p.coord, p.fileHash, p.sourceHash, p.targetHash,
           (getPackageVersion st p.coord p.sourceHash).1,
           (getPackageVersion
              ⟨modifyNode (getPackageVersion st p.coord p.sourceHash).2.nodes
                  (getPackageVersion st p.coord p.sourceHash).1
                  (fun nd => { nd with toPatches := nd.toPatches ++
                    [(getPackageVersion st p.coord p.sourceHash).2.edges.length] }),
                (getPackageVersion st p.coord p.sourceHash).2.edges⟩
              p.coord p.targetHash).1⟩]⟩ := rfl

theorem keyUnique_modify (l : List NodeRec) (e e' : List EdgeRec) (i : Nat)
    (f : NodeRec → NodeRec)
    (hc : ∀ nd, (f nd).coord = nd.coord) (hh : ∀ nd, (f nd).hash = nd.hash)
    (hku : KeyUnique ⟨l, e⟩) : KeyUnique ⟨modifyNode l i f, e'⟩ := by
  refine keyUnique_keep ⟨l, e⟩ ⟨modifyNode l i f, e'⟩ hku (modifyNode_length l i f)
    (fun j hj => ?_)
  by_cases hij : j = i
  · subst hij
    rw [getD_modifyNode_self l j f default hj]
    exact ⟨hc _, hh _⟩
  · rw [getD_modifyNode_ne l i j f default hij]
    exact ⟨rfl, rfl⟩

theorem recordPatchfile_inv (st : PMState) (p : PatchDecl) (hinv : EdgeInv st) :
    EdgeInv (recordPatchfile st p) := by
  rw [recordPatchfile_eq]
  set A := getPackageVersion st p.coord p.sourceHash with hA
  set fTo : NodeRec → NodeRec :=
    fun nd => { nd with toPatches := nd.toPatches ++ [A.2.edges.length] } with hfTo
  set st₂ : PMState := ⟨modifyNode A.2.nodes A.1 fTo, A.2.edges⟩ with hst₂
  set B := getPackageVersion st₂ p.coord p.targetHash with hB
  set fFrom : NodeRec → NodeRec :=
    fun nd => { nd with fromPatches := nd.fromPatches ++ [A.2.edges.length] }
    with hfFrom
  set finalNodes := modifyNode B.2.nodes B.1 fFrom with hfin
  set newEdge : EdgeRec :=
    ⟨p.coord, p.fileHash, p.sourceHash, p.targetHash, A.1, B.1⟩ with hne
  have hedA : A.2.edges = st.edges := getPackageVersion_edges _ _ _
  have hedB : B.2.edges = st.edges := by
    have h := getPackageVersion_edges st₂ p.coord p.targetHash
    rw [← hB] at h
    rw [h]
    exact hedA
  have hkeepA : NodesKeep st.nodes A.2.nodes := getPackageVersion_keep _ _ _
  have hltA : A.1 < A.2.nodes.length := getPackageVersion_lt _ _ _
  have hkeyA : (A.2.nodes.getD A.1 default).coord = p.coord ∧
      (A.2.nodes.getD A.1 default).hash = p.sourceHash :=
    getPackageVersion_key _ _ _
  have hkeep₂ : NodesKeep A.2.nodes st₂.nodes := by
    rw [hst₂]
    exact nodesKeep_modify _ _ _ (fun nd => rfl) (fun nd => rfl)
      (fun nd e he => by
        simp only [hfTo, List.mem_append]
        exact Or.inl he)
      (fun nd e he => he)
  have hkeepB : NodesKeep st₂.nodes B.2.nodes := by
    have h := getPackageVersion_keep st₂ p.coord p.targetHash
    rwa [← hB] at h
  have hltB : B.1 < B.2.nodes.length := by
    have h := getPackageVersion_lt st₂ p.coord p.targetHash
    rwa [← hB] at h
  have hkeyB : (B.2.nodes.getD B.1 default).coord = p.coord ∧
      (B.2.nodes.getD B.1 default).hash = p.targetHash := by
    have h := getPackageVersion_key st₂ p.coord p.targetHash
    rwa [← hB] at h
  have hkeepF : NodesKeep B.2.nodes finalNodes := by
    rw [hfin]
    exact nodesKeep_modify _ _ _ (fun nd => rfl) (fun nd => rfl)
      (fun nd e he => he)
      (fun nd e he => by
        simp only [hfFrom, List.mem_append]
        exact Or.inl he)
  have hkeepAll : NodesKeep st.nodes finalNodes :=
    nodesKeep_trans hkeepA (nodesKeep_trans hkeep₂ (nodesKeep_trans hkeepB hkeepF))
  have hkeepBF : NodesKeep st₂.nodes finalNodes := nodesKeep_trans hkeepB hkeepF
  have hinv' : EdgeInv ⟨finalNodes, st.edges⟩ :=
    edgeInv_keep st ⟨finalNodes, st.edges⟩ hinv rfl hkeepAll
  intro k hk
  dsimp only at hk ⊢
  simp only [List.length_append, List.length_singleton, hedB] at hk
  by_cases hko : k < st.edges.length
  · have hgd : (B.2.edges ++ [newEdge]).getD k default = st.edges.getD k default := by
      rw [List.getD_append _ _ _ _ (by rw [hedB]; exact hko), hedB]
    rw [hgd]
    exact hinv' k hko
  · have hkeq : k = st.edges.length := by omega
    have hgd : (B.2.edges ++ [newEdge]).getD k default = newEdge := by
      rw [List.getD_append_right _ _ _ _ (by rw [hedB]; omega)]
      rw [hedB, hkeq]
      simp
    rw [hgd]
    rw [hne]
    dsimp only
    have heid : A.2.edges.length = k := by rw [hedA, hkeq]
    have hlen₂ : A.1 < st₂.nodes.length := by
      rw [hst₂]
      simpa [modifyNode_length] using hltA
    have hnode₂ : st₂.nodes.getD A.1 default = fTo (A.2.nodes.getD A.1 default) := by
      rw [hst₂]
      exact getD_modifyNode_self _ _ _ _ hltA
    obtain ⟨hcBF, hhBF, htBF, hfBF⟩ := hkeepBF.2 A.1 hlen₂
    refine ⟨?_, ?_, ?_, ?_, ?_, ?_⟩
    · exact lt_of_lt_of_le hlen₂ hkeepBF.1
    · rw [hfin, modifyNode_length]
      exact hltB
    · refine htBF k ?_
      rw [hnode₂, hfTo]
      simp only [List.mem_append, List.mem_singleton]
      exact Or.inr heid.symm
    · rw [hfin, getD_modifyNode_self _ _ _ _ hltB, hfFrom]
      simp only [List.mem_append, List.mem_singleton]
      exact Or.inr heid.symm
    · rw [hhBF, hnode₂, hfTo]
      exact hkeyA.2
    · rw [hfin, getD_modifyNode_self _ _ _ _ hltB, hfFrom]
      exact hkeyB.2

theorem recordPatchfile_keyUnique (st : PMState) (p : PatchDecl)
    (hku : KeyUnique st) : KeyUnique (recordPatchfile st p) := by
  rw [recordPatchfile_eq]
  have h1 : KeyUnique (getPackageVersion st p.coord p.sourceHash).2 :=
    getPackageVersion_keyUnique st p.coord p.sourceHash hku
  have h1' : KeyUnique
      (⟨(getPackageVersion st p.coord p.sourceHash).2.nodes,
        (getPackageVersion st p.coord p.sourceHash).2.edges⟩ : PMState) := h1
  have h2 := keyUnique_modify _ _
    (getPackageVersion st p.coord p.sourceHash).2.edges
    (getPackageVersion st p.coord p.sourceHash).1
    (fun nd => { nd with toPatches := nd.toPatches ++
      [(getPackageVersion st p.coord p.sourceHash).2.edges.length] })
    (fun nd => rfl) (fun nd => rfl) h1'
  have h3 := getPackageVersion_keyUnique _ p.coord p.targetHash h2
  have h3' : KeyUnique
      (⟨(getPackageVersion
          ⟨modifyNode (getPackageVersion st p.coord p.sourceHash).2.nodes
              (getPackageVersion st p.coord p.sourceHash).1
              (fun nd => { nd with toPatches := nd.toPatches ++
                [(getPackageVersion st p.coord p.sourceHash).2.edges.length] }),
            (getPackageVersion st p.coord p.sourceHash).2.edges⟩
          p.coord p.targetHash).2.nodes,
        (getPackageVersion
          ⟨modifyNode (getPackageVersion st p.coord p.sourceHash).2.nodes
              (getPackageVersion st p.coord p.sourceHash).1
              (fun nd => { nd with toPatches := nd.toPatches ++
                [(getPackageVersion st p.coord p.sourceHash).2.edges.length] }),
            (getPackageVersion st p.coord p.sourceHash).2.edges⟩
          p.coord p.targetHash).2.edges⟩ : PMState) := h3
  exact keyUnique_modify _ _ _ _ _ (fun nd => rfl) (fun nd => rfl) h3'

theorem anchorStep_inv (st : PMState) (c : Coord) (h : Nat)
    (f : NodeRec → NodeRec)
    (hc : ∀ nd, (f nd).coord = nd.coord) (hh : ∀ nd, (f nd).hash = nd.hash)
    (ht : ∀ nd e, e ∈ nd.toPatches → e ∈ (f nd).toPatches)
    (hf : ∀ nd e, e ∈ nd.fromPatches → e ∈ (f nd).fromPatches)
    (hinv : EdgeInv st) :
    EdgeInv ⟨modifyNode (getPackageVersion st c h).2.nodes
      (getPackageVersion st c h).1 f, (getPackageVersion st c h).2.edges⟩ := by
  refine edgeInv_keep st _ hinv (getPackageVersion_edges st c h) ?_
  exact nodesKeep_trans (getPackageVersion_keep st c h)
    (nodesKeep_modify _ _ _ hc hh ht hf)

theorem anchorStep_keyUnique (st : PMState) (c : Coord) (h : Nat)
    (f : NodeRec → NodeRec)
    (hc : ∀ nd, (f nd).coord = nd.coord) (hh : ∀ nd, (f nd).hash = nd.hash)
    (hku : KeyUnique st) :
    KeyUnique (⟨modifyNode (getPackageVersion st c h).2.nodes
      (getPackageVersion st c h).1 f,
      (getPackageVersion st c h).2.edges⟩ : PMState) := by
  have h1 : KeyUnique
      (⟨(getPackageVersion st c h).2.nodes,
        (getPackageVersion st c h).2.edges⟩ : PMState) :=
    getPackageVersion_keyUnique st c h hku
  exact keyUnique_modify _ _ _ _ _ hc hh h1

theorem foldl_recordPatchfile_inv :
    ∀ (ps : List PatchDecl) (st : PMState), EdgeInv st →
      EdgeInv (ps.foldl recordPatchfile st) := by
  intro ps
  induction ps with
  | nil => intro st hinv; exact hinv
  | cons p rest ih =>
    intro st hinv
    exact ih (recordPatchfile st p) (recordPatchfile_inv st p hinv)

theorem foldl_recordPatchfile_keyUnique :
    ∀ (ps : List PatchDecl) (st : PMState), KeyUnique st →
      KeyUnique (ps.foldl recordPatchfile st) := by
  intro ps
  induction ps with
  | nil => intro st hku; exact hku
  | cons p rest ih =>
    intro st hku
    exact ih (recordPatchfile st p) (recordPatchfile_keyUnique st p hku)

theorem wirePackage_inv (st : PMState) (idx : Nat) (p : PkgIn)
    (hinv : EdgeInv st) : EdgeInv (wirePackage st idx p).1 := by
  cases hbf : p.baseFile with
  | none => simp only [wirePackage, hbf]; exact hinv
  | some bf =>
    simp only [wirePackage, hbf]
    apply foldl_recordPatchfile_inv
    exact anchorStep_inv _ _ _ _ (fun _ => rfl) (fun _ => rfl)
      (fun _ _ he => he) (fun _ _ he => he)
      (anchorStep_inv _ _ _ _ (fun _ => rfl) (fun _ => rfl)
        (fun _ _ he => he) (fun _ _ he => he)
        (anchorStep_inv _ _ _ _ (fun _ => rfl) (fun _ => rfl)
          (fun _ _ he => he) (fun _ _ he => he) hinv))

theorem wirePackage_keyUnique (st : PMState) (idx : Nat) (p : PkgIn)
    (hku : KeyUnique st) : KeyUnique (wirePackage st idx p).1 := by
  cases hbf : p.baseFile with
  | none => simp only [wirePackage, hbf]; exact hku
  | some bf =>
    simp only [wirePackage, hbf]
    apply foldl_recordPatchfile_keyUnique
    exact anchorStep_keyUnique _ _ _ _ (fun _ => rfl) (fun _ => rfl)
      (anchorStep_keyUnique _ _ _ _ (fun _ => rfl) (fun _ => rfl)
        (anchorStep_keyUnique _ _ _ _ (fun _ => rfl) (fun _ => rfl) hku))

theorem buildPatchChainsAux_inv :
    ∀ (pkgs : List PkgIn) (st : PMState) (idx : Nat), EdgeInv st →
      EdgeInv (buildPatchChainsAux st idx pkgs).1 := by
  intro pkgs
  induction pkgs with
  | nil => intro st idx hinv; exact hinv
  | cons p rest ih =>
    intro st idx hinv
    simp only [buildPatchChainsAux]
    exact ih (wirePackage st idx p).1 (idx + 1) (wirePackage_inv st idx p hinv)

theorem buildPatchChainsAux_keyUnique :
    ∀ (pkgs : List PkgIn) (st : PMState) (idx : Nat), KeyUnique st →
      KeyUnique (buildPatchChainsAux st idx pkgs).1 := by
  intro pkgs
  induction pkgs with
  | nil => intro st idx hku; exact hku
  | cons p rest ih =>
    intro st idx hku
    simp only [buildPatchChainsAux]
    exact ih (wirePackage st idx p).1 (idx + 1) (wirePackage_keyUnique st idx p hku)

/-- C8: the edge-wiring invariant holds after `buildPatchChains` (from
any state satisfying it, in particular the empty registry of a fresh
`PatchMaker`), and is preserved by every later `recordPatchfile` (as
called by `buildPatch`): each edge sits in its source node's `toPatches`
and its target node's `fromPatches`, and those nodes' interned hashes
are the edge's source and target hashes. -/
theorem claim_C8_edge_wiring :
    (∀ st pkgs, EdgeInv st → EdgeInv (buildPatchChains st pkgs).1) ∧
    (∀ st p, EdgeInv st → EdgeInv (recordPatchfile st p)) :=
  ⟨fun st pkgs hinv => buildPatchChainsAux_inv pkgs st 0 hinv,
   fun st p hinv => recordPatchfile_inv st p hinv⟩

theorem claim_C8_witness :
    (EdgeInv pmEmpty ∧
      EdgeInv (buildPatchChains pmEmpty [exPkgIn]).1) ∧
    (EdgeInv (buildPatchChains pmEmpty [exPkgIn]).1 ∧
      EdgeInv (recordPatchfile (buildPatchChains pmEmpty [exPkgIn]).1 exPatchDecl)) :=
  ⟨⟨by decide, claim_C8_edge_wiring.1 pmEmpty [exPkgIn] (by decide)⟩,
   ⟨by decide, claim_C8_edge_wiring.2 (buildPatchChains pmEmpty [exPkgIn]).1
      exPatchDecl (by decide)⟩⟩

/-- C9: node identity — `buildPatchChains` keeps the interning table
free of two distinct nodes with the same `(name, platform, version,
hostUrl)` coordinates and file hash (starting from any such state, in
particular the empty one), and `getPackageVersion` called again with a
key sharing coordinates and hash returns the very same node and leaves
the registry untouched. -/
theorem claim_C9_node_identity :
    (∀ st pkgs, KeyUnique st → KeyUnique (buildPatchChains st pkgs).1) ∧
    (∀ st c h, getPackageVersion (getPackageVersion st c h).2 c h =
       ((getPackageVersion st c h).1, (getPackageVersion st c h).2)) :=
  ⟨fun st pkgs h => buildPatchChainsAux_keyUnique pkgs st 0 h,
   fun st c h => getPackageVersion_of_found _ c h _ (getPackageVersion_lookup st c h)⟩

theorem claim_C9_witness :
    (KeyUnique pmEmpty ∧ KeyUnique (buildPatchChains pmEmpty [exPkgIn]).1) ∧
    getPackageVersion (getPackageVersion pmEmpty exCoord 7).2 exCoord 7 =
      ((getPackageVersion pmEmpty exCoord 7).1,
       (getPackageVersion pmEmpty exCoord 7).2) :=
  ⟨⟨by decide, claim_C9_node_identity.1 pmEmpty [exPkgIn] (by decide)⟩,
   claim_C9_node_identity.2 pmEmpty exCoord 7⟩

theorem processPackage_wirePackage_noop (st : PMState) (idx : Nat) (p : PkgIn)
    (hh : p.topFile.hash = p.currentFile.hash) :
    processPackage p (wirePackage st idx p).2 = none := by
  cases hbf : p.baseFile with
  | none => simp [processPackage, hbf]
  | some bf =>
    simp only [wirePackage, hbf]
    set rc := getPackageVersion st p.coord p.currentFile.hash with hrc
    set setCur : NodeRec → NodeRec :=
      fun nd => { nd with packageCurrent := some idx } with hsetCur
    set st₁ : PMState := ⟨modifyNode rc.2.nodes rc.1 setCur, rc.2.edges⟩ with hst₁
    set rb := getPackageVersion st₁ p.coord bf.hash with hrb
    set setBase : NodeRec → NodeRec :=
      fun nd => { nd with packageBase := some idx } with hsetBase
    set st₂ : PMState := ⟨modifyNode rb.2.nodes rb.1 setBase, rb.2.edges⟩ with hst₂
    set rt := getPackageVersion st₂ p.coord p.topFile.hash with hrt
    have hkey : rt.1 = rc.1 := by
      have h1 : lookupNode rc.2.nodes p.coord p.currentFile.hash = some rc.1 := by
        rw [hrc]
        exact getPackageVersion_lookup st _ _
      have h2 : lookupNode st₁.nodes p.coord p.currentFile.hash = some rc.1 := by
        rw [hst₁]
        dsimp only
        rw [lookupNode_modify rc.2.nodes rc.1 setCur (fun _ => rfl) (fun _ => rfl)]
        exact h1
      have h3 : lookupNode rb.2.nodes p.coord p.currentFile.hash = some rc.1 := by
        rw [hrb]
        exact lookupNode_gpv_mono st₁ _ _ _ _ _ h2
      have h4 : lookupNode st₂.nodes p.coord p.currentFile.hash = some rc.1 := by
        rw [hst₂]
        dsimp only
        rw [lookupNode_modify rb.2.nodes rb.1 setBase (fun _ => rfl) (fun _ => rfl)]
        exact h3
      have h5 : rt = (rc.1, st₂) := by
        rw [hrt, hh]
        exact getPackageVersion_of_found st₂ _ _ _ h4
      rw [h5]
    simp [processPackage, hbf, hkey]

theorem topStep_isNew (d : DescXml) (tf : Option FileSpec) (isNew anyCh : Bool)
    (h : topStep d.uncompressed_archive d.top_version = some (tf, isNew, anyCh)) :
    isNew = descIsNewVersion d := by
  rw [topStep.eq_def] at h
  rw [descIsNewVersion]
  cases htv : d.top_version with
  | none =>
    rw [htv] at h
    simp only [Option.some.injEq, Prod.mk.injEq] at h
    cases hcv : d.uncompressed_archive <;> simp [h.2.1.symm]
  | some tfile =>
    rw [htv] at h
    dsimp only at h
    cases hcv : d.uncompressed_archive with
    | none => rw [hcv] at h; simp at h
    | some cf =>
      rw [hcv] at h
      dsimp only at h ⊢
      by_cases hhash : tfile.hash = cf.hash
      · rw [if_pos hhash] at h
        simp only [Option.some.injEq, Prod.mk.injEq] at h
        simp [h.2.1.symm, hhash]
      · rw [if_neg hhash] at h
        simp only [Option.some.injEq, Prod.mk.injEq] at h
        simp [h.2.1.symm, hhash]

theorem compressedStep_mono (dp : Bool) (cf ca : Option FileSpec) (pv : Nat)
    (x : Option String) (b : Bool) (acts : List FsAct)
    (h : compressedStep dp cf ca pv true = some (x, b, acts)) : b = true := by
  rw [compressedStep.eq_def] at h
  cases hca : ca with
  | none =>
    rw [hca] at h
    simp only [Option.some.injEq, Prod.mk.injEq] at h
    exact h.2.1.symm
  | some comp =>
    rw [hca] at h
    dsimp only at h
    cases hdp : dp with
    | false =>
      rw [hdp] at h
      simp only [Bool.false_eq_true, if_false, Option.some.injEq, Prod.mk.injEq] at h
      exact h.2.1.symm
    | true =>
      rw [hdp] at h
      simp only [if_true] at h
      cases hcf : cf with
      | none => rw [hcf] at h; simp at h
      | some c =>
        rw [hcf] at h
        dsimp only at h
        by_cases hne : c.filename ++ "." ++ toString pv ++ ".pz" ≠ comp.filename
        · rw [if_pos hne] at h
          simp only [Option.some.injEq, Prod.mk.injEq] at h
          exact h.2.1.symm
        · rw [if_neg hne] at h
          simp only [Option.some.injEq, Prod.mk.injEq] at h
          exact h.2.1.symm

theorem baseStep_mono (dp : Bool) (cf bv : Option FileSpec) (cfn : Option String)
    (x : Option FileSpec) (b : Bool) (acts : List FsAct)
    (h : baseStep dp cf bv cfn true = some (x, b, acts)) : b = true := by
  rw [baseStep.eq_def] at h
  cases hbv : bv with
  | some bfl =>
    rw [hbv] at h
    simp only [Option.some.injEq, Prod.mk.injEq] at h
    exact h.2.1.symm
  | none =>
    rw [hbv] at h
    cases hcf : cf with
    | none => rw [hcf] at h; simp at h
    | some c =>
      rw [hcf] at h
      simp only [Option.some.injEq, Prod.mk.injEq] at h
      exact h.2.1.symm

/-- C5: the patch-version update of `readDescFile`: a `patch_version`
attribute is taken verbatim and that step leaves the dirty flag exactly
as it found it; otherwise a `last_patch_version` attribute is taken,
incremented by one exactly when the top hash differs from the current
hash (`isNewVersion`), and the package is marked dirty. -/
theorem claim_C5_patch_version (dp : Bool) (d : DescXml) (res : DescResult)
    (h : readDescFile dp d = some res) :
    (∀ v, d.patch_version = some v → res.patchVersion = v) ∧
    (d.patch_version.isSome →
      ∀ lp isNew pv₀ b, (patchVersionStep d.patch_version lp isNew pv₀ b).2 = b) ∧
    (d.patch_version = none → ∀ w, d.last_patch_version = some w →
      res.anyChanges = true ∧
      res.patchVersion = if descIsNewVersion d then w + 1 else w) := by
  rw [readDescFile] at h
  cases ht : topStep d.uncompressed_archive d.top_version with
  | none => rw [ht] at h; exact absurd h (by simp)
  | some trip =>
    rw [ht] at h
    obtain ⟨topFile, isNew, anyCh₁⟩ := trip
    dsimp only at h
    cases hcs : compressedStep dp d.uncompressed_archive d.compressed_archive
        (patchVersionStep d.patch_version d.last_patch_version isNew 1 anyCh₁).1
        (patchVersionStep d.patch_version d.last_patch_version isNew 1 anyCh₁).2 with
    | none => rw [hcs] at h; exact absurd h (by simp)
    | some trip₂ =>
      rw [hcs] at h
      obtain ⟨cfn, anyCh₃, acts₁⟩ := trip₂
      dsimp only at h
      cases hbs : baseStep dp d.uncompressed_archive d.base_version cfn anyCh₃ with
      | none => rw [hbs] at h; exact absurd h (by simp)
      | some trip₃ =>
        rw [hbs] at h
        obtain ⟨bfl, anyCh₄, acts₂⟩ := trip₃
        dsimp only at h
        simp only [Option.some.injEq] at h
        have hpv : res.patchVersion =
            (patchVersionStep d.patch_version d.last_patch_version isNew 1 anyCh₁).1 := by
          rw [← h]
        have hac : res.anyChanges = anyCh₄ := by rw [← h]
        refine ⟨?_, ?_, ?_⟩
        · intro v hv
          rw [hpv, patchVersionStep.eq_def, hv]
        · intro hsome lp isNew' pv₀ b
          obtain ⟨v, hv⟩ := Option.isSome_iff_exists.mp hsome
          rw [patchVersionStep.eq_def, hv]
        · intro hnone w hw
          have hstep : patchVersionStep d.patch_version d.last_patch_version
              isNew 1 anyCh₁ = (if isNew then w + 1 else w, true) := by
            rw [patchVersionStep.eq_def, hnone, hw]
          constructor
          · rw [hac]
            have h₃ : anyCh₃ = true :=
              compressedStep_mono dp d.uncompressed_archive d.compressed_archive
                _ cfn anyCh₃ acts₁ (by rw [← hcs, hstep])
            subst h₃
            exact baseStep_mono dp d.uncompressed_archive d.base_version cfn
              bfl anyCh₄ acts₂ hbs
          · rw [hpv, hstep, topStep_isNew d topFile isNew anyCh₁ ht]

theorem claim_C5_witness :
    readDescFile false exDescLast = some exDescLastRes ∧
    ((∀ v, exDescLast.patch_version = some v → exDescLastRes.patchVersion = v) ∧
     (exDescLast.patch_version.isSome →
       ∀ lp isNew pv₀ b,
         (patchVersionStep exDescLast.patch_version lp isNew pv₀ b).2 = b) ∧
     (exDescLast.patch_version = none →
       ∀ w, exDescLast.last_patch_version = some w →
         exDescLastRes.anyChanges = true ∧
         exDescLastRes.patchVersion =
           if descIsNewVersion exDescLast then w + 1 else w)) :=
  ⟨by decide, claim_C5_patch_version false exDescLast exDescLastRes (by decide)⟩

/-- C6: no-op publication (spec scenario S1) — a descriptor whose
`top_version` hash equals the current hash, carrying `patch_version`,
`base_version` and a compressed filename already of the form
`<currentFile.filename>.<patchVersion>.pz`, reads back clean:
`anyChanges` stays false, no file is renamed or copied, `writeDescFile`
writes nothing, and `processPackage` authors no edge because the top and
current keys intern to the same node. -/
theorem claim_C6_noop_publication (d : DescXml) (tf cf bf comp : FileSpec)
    (pv : Nat)
    (h1 : d.uncompressed_archive = some cf) (h2 : d.top_version = some tf)
    (h3 : tf.hash = cf.hash) (h4 : d.patch_version = some pv)
    (h5 : d.base_version = some bf) (h6 : d.compressed_archive = some comp)
    (h7 : comp.filename = cf.filename ++ "." ++ toString pv ++ ".pz") :
    ∃ res, readDescFile true d = some res ∧ res.anyChanges = false ∧
      res.actions = [] ∧ writeDescFile res = none ∧
      ∀ pin, mkPkgIn res = some pin →
        ∀ st idx, processPackage pin (wirePackage st idx pin).2 = none := by
  have htop : topStep d.uncompressed_archive d.top_version =
      some (some tf, false, false) := by
    rw [topStep.eq_def, h2, h1]
    dsimp only
    rw [if_pos h3]
  have hcomp : compressedStep true d.uncompressed_archive d.compressed_archive
      pv false = some (some comp.filename, false, []) := by
    rw [compressedStep.eq_def, h6, h1]
    dsimp only
    rw [if_pos rfl]
    rw [if_neg (by simp [h7])]
  have hbase : baseStep true d.uncompressed_archive d.base_version
      (some comp.filename) false = some (some bf, false, []) := by
    rw [baseStep.eq_def, h5]
  have hstep : patchVersionStep d.patch_version d.last_patch_version false 1 false =
      (pv, false) := by
    rw [patchVersionStep.eq_def, h4]
  refine ⟨⟨⟨d.name, d.platform, d.version, none⟩, d.uncompressed_archive,
    some tf, some bf, some comp.filename, pv, false, false, d.patches, []⟩,
    ?_, rfl, rfl, rfl, ?_⟩
  · rw [readDescFile, htop]
    dsimp only
    rw [hstep]
    dsimp only
    rw [hcomp]
    dsimp only
    rw [hbase]
    dsimp only
    rfl
  · intro pin hpin st idx
    rw [mkPkgIn.eq_def] at hpin
    dsimp only at hpin
    rw [h1] at hpin
    dsimp only at hpin
    simp only [Option.some.injEq] at hpin
    rw [← hpin]
    refine processPackage_wirePackage_noop st idx _ ?_
    dsimp only
    rw [h3]

theorem claim_C6_witness :
    (exDescNoop.uncompressed_archive = some ⟨"pkg.mf", 7⟩ ∧
     exDescNoop.top_version = some ⟨"pkg.mf", 7⟩ ∧
     exDescNoop.patch_version = some 3 ∧
     exDescNoop.base_version = some ⟨"pkg.mf.base", 5⟩ ∧
     exDescNoop.compressed_archive = some ⟨"pkg.mf.3.pz", 9⟩ ∧
     "pkg.mf.3.pz" = "pkg.mf" ++ "." ++ toString 3 ++ ".pz") ∧
    (∃ res, readDescFile true exDescNoop = some res ∧ res.anyChanges = false ∧
      res.actions = [] ∧ writeDescFile res = none ∧
      ∀ pin, mkPkgIn res = some pin →
        ∀ st idx, processPackage pin (wirePackage st idx pin).2 = none) :=
  ⟨⟨rfl, rfl, rfl, rfl, rfl, by decide⟩,
   claim_C6_noop_publication exDescNoop ⟨"pkg.mf", 7⟩ ⟨"pkg.mf", 7⟩
     ⟨"pkg.mf.base", 5⟩ ⟨"pkg.mf.3.pz", 9⟩ 3 rfl rfl rfl rfl rfl rfl (by decide)⟩

/-- C10 counterexample: a false return of `buildPatchFile` can leave a
file at the output path — when the original file is missing, the
function returns `False` before any unlink, so a pre-existing stale file
at `patchFilename` remains on disk. -/
theorem claim_C10_counterexample :
    (buildPatchFile ⟨true, false⟩ [5] 1 2 5).1 = false ∧
    5 ∈ (buildPatchFile ⟨true, false⟩ [5] 1 2 5).2 := by decide

/-- C10 (amended): when the original file is missing, `buildPatchFile`
returns `False` without touching the filesystem (so a pre-existing file
at the output path is left in place); when the original exists and the
external delta builder fails, it returns `False` and no file remains at
the output path (unlinked before the build and again after the failed
build). -/
theorem claim_C10_unlink_on_failure (o : BuildOracle) (fs : List Nat)
    (orig new patch : Nat) :
    (orig ∉ fs → buildPatchFile o fs orig new patch = (false, fs)) ∧
    (orig ∈ fs → o.buildOk = false →
      (buildPatchFile o fs orig new patch).1 = false ∧
      patch ∉ (buildPatchFile o fs orig new patch).2) := by
  constructor
  · intro hno
    rw [buildPatchFile, if_neg hno]
  · intro hyes hok
    rw [buildPatchFile, if_pos hyes, hok]
    simp only [Bool.false_eq_true, if_false]
    refine ⟨by trivial, ?_⟩
    intro hmem
    rw [fsRemove] at hmem
    simp only [List.mem_filter, decide_eq_true_eq] at hmem
    exact hmem.2 rfl

theorem claim_C10_witness :
    ((1 : Nat) ∉ ([5] : List Nat) ∧
      buildPatchFile ⟨false, true⟩ [5] 1 2 5 = (false, [5])) ∧
    ((1 : Nat) ∈ ([1, 5] : List Nat) ∧
      (⟨false, true⟩ : BuildOracle).buildOk = false ∧
      (buildPatchFile ⟨false, true⟩ [1, 5] 1 2 5).1 = false ∧
      5 ∉ (buildPatchFile ⟨false, true⟩ [1, 5] 1 2 5).2) :=
  ⟨⟨by decide, (claim_C10_unlink_on_failure ⟨false, true⟩ [5] 1 2 5).1 (by decide)⟩,
   ⟨by decide, rfl,
    (claim_C10_unlink_on_failure ⟨false, true⟩ [1, 5] 1 2 5).2 (by decide) rfl⟩⟩
